import Mathlib

/-!
Statement classification and assignment removal (`utils/helpers.go`).

A shallow embedding of the Go package `utils`:

* `Validate`        – flattening of the comma separated name groups,
* `FindFunctions` / `findFunction` – lookup of function declarations,
* `parseFunction`   – bucketing of the statements of a function body,
* `ParseFunctions`  – classification of the located functions,
* `ReturnAssignments` / `remove` – report of the assignments and their removal
  from the listing.

Modelling conventions.

* A Go slice is a Lean `List`.  The slices of one `StatementCollection` are
  built by `parseFunction` through independent `append` chains, so they never
  share a backing array, and such a slice is the list of its elements.  For
  collections whose slices may share an array, `remove` is also run on slice
  headers over a memory of arrays (`removeInPlace`); `removeInPlace_refines`
  shows that both agree when the listing shares nothing with the stacks.
* An `ast.Stmt` interface value holding a non-nil pointer is a `Stmt`: the name
  of its dynamic type together with the address it points to.  Go compares two
  interface values with `==` by dynamic type and pointer, which is the derived
  equality of `Stmt`.
* A Go `string` is a Lean `String`.
* A call that can stop the program returns a `Result`.
-/

namespace Utils

/-- Outcome of running a Go function that may stop the program. -/
inductive Result (α : Type) where
  /-- normal return with a value -/
  | ok (a : α) : Result α
  /-- the process ended through `os.Exit(code)` -/
  | exit (code : Int) : Result α
  /-- a run-time panic (index out of range, nil dereference) -/
  | panic : Result α
  /-- the step budget of a loop model ran out -/
  | outOfFuel : Result α
  deriving DecidableEq, Repr

/-- An `ast.Stmt` value: a non-nil pointer `ref` to a node whose dynamic type
is named `typeName`. -/
structure Stmt where
  typeName : String
  ref : Nat
  deriving DecidableEq, Repr

/-- Function `GetNodeType`: the name of the type the node pointer points to
(`reflect.ValueOf(node).Elem().Type().Name()`). -/
def GetNodeType (node : Stmt) : String := node.typeName

/-- Type `StatementCollection`: all statements of a function as stacks. -/
structure StatementCollection where
  AssignStack : List Stmt := []
  ExprStack : List Stmt := []
  IfStack : List Stmt := []
  BadStack : List Stmt := []
  DeclStack : List Stmt := []
  EmptyStack : List Stmt := []
  LabeledStack : List Stmt := []
  SendStack : List Stmt := []
  IncDecStack : List Stmt := []
  GoStack : List Stmt := []
  DeferStack : List Stmt := []
  ReturnStack : List Stmt := []
  BranchStack : List Stmt := []
  BlockStack : List Stmt := []
  SwitchStack : List Stmt := []
  TypeSwitchStack : List Stmt := []
  CommStack : List Stmt := []
  SelectStack : List Stmt := []
  ForStack : List Stmt := []
  RangeStack : List Stmt := []
  Listing : List Stmt := []
  deriving DecidableEq, Repr

/-- The `switch GetNodeType(element)` of `parseFunction`: the element is
appended to the stack of the first matching case, to none when no case
matches (the switch has no default). -/
def bucketStep (collection : StatementCollection) (element : Stmt) : StatementCollection :=
  let t := GetNodeType element
  if t = "AssignStmt" then
    { collection with AssignStack := collection.AssignStack ++ [element] }
  else if t = "ExprStmt" then
    { collection with ExprStack := collection.ExprStack ++ [element] }
  else if t = "IfStmt" then
    { collection with IfStack := collection.IfStack ++ [element] }
  else if t = "BadStmt" then
    { collection with BadStack := collection.BadStack ++ [element] }
  else if t = "DeclStmt" then
    { collection with DeclStack := collection.DeclStack ++ [element] }
  else if t = "EmptyStmt" then
    { collection with EmptyStack := collection.EmptyStack ++ [element] }
  else if t = "LabeledStmt" then
    { collection with LabeledStack := collection.LabeledStack ++ [element] }
  else if t = "SendStmt" then
    { collection with SendStack := collection.SendStack ++ [element] }
  else if t = "IncDecStmt" then
    { collection with IncDecStack := collection.IncDecStack ++ [element] }
  else if t = "GoStmt" then
    { collection with GoStack := collection.GoStack ++ [element] }
  else if t = "DeferStmt" then
    { collection with DeferStack := collection.DeferStack ++ [element] }
  else if t = "ReturnStmt" then
    { collection with ReturnStack := collection.ReturnStack ++ [element] }
  else if t = "BranchStmt" then
    { collection with BranchStack := collection.BranchStack ++ [element] }
  else if t = "BlockStmt" then
    { collection with BlockStack := collection.BlockStack ++ [element] }
  else if t = "SwitchStmt" then
    { collection with SwitchStack := collection.SwitchStack ++ [element] }
  else if t = "TypeSwitchStmt" then
    { collection with TypeSwitchStack := collection.TypeSwitchStack ++ [element] }
  else if t = "CommClauseStmt" then
    { collection with CommStack := collection.CommStack ++ [element] }
  else if t = "SelectStmt" then
    { collection with SelectStack := collection.SelectStack ++ [element] }
  else if t = "ForStmt" then
    { collection with ForStack := collection.ForStack ++ [element] }
  else if t = "RangeStmt" then
    { collection with RangeStack := collection.RangeStack ++ [element] }
  else collection

/-- One iteration of the `for i := range stmts` loop of `parseFunction`:
the switch, then the unconditional append to `Listing`. -/
def parseStep (collection : StatementCollection) (element : Stmt) : StatementCollection :=
  let c := bucketStep collection element
  { c with Listing := c.Listing ++ [element] }

/-- Function `parseFunction`: starts from the empty collection and runs the loop body
over the statements in order. -/
def parseFunction (stmts : List Stmt) : StatementCollection :=
  stmts.foldl parseStep {}

/-- The inner loop `for j := 0; j < len(AssignStack); j++` of `remove`, run
over the assignments still to be compared (`AssignStack[j:]`).  Each round
reads `Listing[i]`, which panics when `i` is out of range, and on a match
replaces the listing by `append(Listing[:i], Listing[i+1:]...)`.  The slices
are lists here: this is the loop for an assignment stack that shares no array
element with the listing (`removeInnerInPlace` is the loop in memory). -/
def removeInner (i : Nat) : List Stmt → List Stmt → Result (List Stmt)
  | [], listing => .ok listing
  | a :: rest, listing =>
    match listing[i]? with
    | none => .panic
    | some x =>
      if x = a then removeInner i rest (listing.take i ++ listing.drop (i + 1))
      else removeInner i rest listing

/-- The outer loop `for i := 0; i < len(Listing); i++` of `remove`, with a
step budget: every round consumes one unit. -/
def removeOuter (assignStack : List Stmt) : Nat → Nat → List Stmt → Result (List Stmt)
  | 0, i, listing => if i < listing.length then .outOfFuel else .ok listing
  | fuel + 1, i, listing =>
    if i < listing.length then
      match removeInner i assignStack listing with
      | .ok listing1 => removeOuter assignStack fuel (i + 1) listing1
      | .exit code => .exit code
      | .panic => .panic
      | .outOfFuel => .outOfFuel
    else .ok listing

/-- Function `remove`: removes assignment statements from the collection listing.
The budget `len(Listing)` is enough for the outer loop (`removeOuter_fuel`).
The slices are lists here: this is `remove` for a collection whose listing
shares no array element with its stacks (`removeInPlace` is `remove` on slices
in memory, `removeInPlace_refines` relates the two). -/
def remove (collection : StatementCollection) : Result StatementCollection :=
  match removeOuter collection.AssignStack collection.Listing.length 0 collection.Listing with
  | .ok listing => .ok { collection with Listing := listing }
  | .exit code => .exit code
  | .panic => .panic
  | .outOfFuel => .outOfFuel

/-- Function `ReturnAssignments`: prints the assignments (the printed strings are
`ReturnAssignmentsOutput`) and returns `remove(collection)`. -/
def ReturnAssignments (collection : StatementCollection) : Result StatementCollection :=
  remove collection

/-- Library function `strings.Split(s, sep)` for a separator of one character, on the characters
of `s`: the pieces between the separators, `n + 1` pieces for `n` separators
(so one empty piece for the empty string). -/
def splitChars (sep : Char) : List Char → List (List Char)
  | [] => [[]]
  | c :: cs =>
    if c = sep then [] :: splitChars sep cs
    else
      match splitChars sep cs with
      | [] => [[c]]
      | w :: ws => (c :: w) :: ws

/-- Library function `strings.Split(s, ",")`. -/
def stringsSplit (s : String) : List String :=
  (splitChars ',' s.data).map String.mk

/-- The inner loop of `Validate` over the pieces `fn` of one entry: a piece
that is `""` is skipped (`continue`), any other is appended to `out`. -/
def validateInner (out : List String) (fn : List String) : List String :=
  fn.foldl (fun out t => if t = "" then out else out ++ [t]) out

/-- Function `Validate`: splits every entry at the commas, drops the empty names and
exits with status `-1` when no name is left. -/
def Validate (functions : List String) : Result (List String) :=
  let out := functions.foldl (fun out f => validateInner out (stringsSplit f)) []
  if out.length = 0 then .exit (-1) else .ok out

/-- An `*ast.FuncDecl` that is not nil: the address `ref` of the node, its
`Name.Name`, and `Body.List` (`none` when `Body` is nil). -/
structure FuncDecl where
  ref : Nat
  name : String
  body : Option (List Stmt)
  deriving DecidableEq, Repr

/-- A parsed file: the `*ast.FuncDecl` nodes that `ast.Inspect` meets, in the
order it meets them. -/
abbrev File := List FuncDecl

/-- A package: its files in the order `range packages[i].Files` yields them. -/
abbrev Package := List File

/-- The result of `parser.ParseDir`: the packages in the order
`range packages` yields them. -/
abbrev Corpus := List Package

/-- Function `findFunction`: visits every function declaration of every file of every
package and keeps the last one whose name equals `function`; `none` is the
nil pointer.  `verbose` only adds console output. -/
def findFunction (project : Corpus) (function : String) (_verbose : Bool) : Option FuncDecl :=
  project.foldl (fun out pkg =>
    pkg.foldl (fun out file =>
      file.foldl (fun out fn => if fn.name = function then some fn else out) out) out) none

/-- Function `FindFunctions`: validates the names, then appends the result of
`findFunction` for each validated name. -/
def FindFunctions (project : Corpus) (functions : List String) (verbose : Bool) :
    Result (List (Option FuncDecl)) :=
  match Validate functions with
  | .ok functions =>
    .ok (functions.foldl (fun targetFuncs f => targetFuncs ++ [findFunction project f verbose]) [])
  | .exit code => .exit code
  | .panic => .panic
  | .outOfFuel => .outOfFuel

/-- The twenty kind stacks of a collection, in the order of their declaration. -/
def kindStacks (c : StatementCollection) : List (List Stmt) :=
  [c.AssignStack, c.ExprStack, c.IfStack, c.BadStack, c.DeclStack, c.EmptyStack,
   c.LabeledStack, c.SendStack, c.IncDecStack, c.GoStack, c.DeferStack, c.ReturnStack,
   c.BranchStack, c.BlockStack, c.SwitchStack, c.TypeSwitchStack, c.CommStack,
   c.SelectStack, c.ForStack, c.RangeStack]

/-- The nodes of `stmts` whose type name is `name`, in their order. -/
def ofKind (name : String) (stmts : List Stmt) : List Stmt :=
  stmts.filter (fun s => decide (GetNodeType s = name))

/-- The type names of the `case` labels of the switch in `parseFunction`, in
the order of the stacks they append to. -/
def switchNames : List String :=
  ["AssignStmt", "ExprStmt", "IfStmt", "BadStmt", "DeclStmt", "EmptyStmt", "LabeledStmt",
   "SendStmt", "IncDecStmt", "GoStmt", "DeferStmt", "ReturnStmt", "BranchStmt", "BlockStmt",
   "SwitchStmt", "TypeSwitchStmt", "CommClauseStmt", "SelectStmt", "ForStmt", "RangeStmt"]

/-- The top-level statements of the body `{ x := 1; if x > 0 { return x }; y := 2 }`:
three distinct nodes. -/
def exampleBody : List Stmt :=
  [⟨"AssignStmt", 0⟩, ⟨"IfStmt", 1⟩, ⟨"AssignStmt", 2⟩]

/-- The name list the specification asks of `validate`: the concatenation, over
the entries in order, of each entry split at the commas with the empty pieces
discarded. -/
def flatNames (groups : List String) : List String :=
  groups.flatMap (fun g => (stringsSplit g).filter (fun t => decide (t ≠ "")))

/-- All function declarations of a corpus, in the order `findFunction` visits
them. -/
def corpusDecls (project : Corpus) : List FuncDecl :=
  project.flatten.flatten

/-- A corpus of one package with two files, declaring `main` and `helper`. -/
def exampleCorpus : Corpus :=
  [[[⟨10, "main", some exampleBody⟩], [⟨11, "helper", some []⟩]]]

/-- Where the scan of a format string by `fmt.Printf` stands: in plain text,
or behind a `%` and the flags read so far. -/
inductive FmtState where
  | text : FmtState
  | flags : FmtState
  deriving DecidableEq, Repr

/-- Library function `fmt.Printf(format)` called without operands, on the
characters of the format.  Plain text is copied.  Behind a `%` the flags
`#`, `0`, `+`, `-` and space are skipped; then the verb `%` prints `%`, any
other verb `v` prints `%!v(MISSING)` as no operand is left for it, and the end
of the format prints `%!(NOVERB)`.  Formats with a width, a precision or an
argument index (a digit, `.`, `*` or `[` behind the flags) are outside the
modelled fragment: `none`. -/
def printfChars : FmtState → List Char → Option (List Char)
  | .text, [] => some []
  | .text, c :: cs =>
    if c = '%' then printfChars .flags cs
    else (printfChars .text cs).map (fun r => c :: r)
  | .flags, [] => some "%!(NOVERB)".data
  | .flags, c :: cs =>
    if c = '#' ∨ c = '0' ∨ c = '+' ∨ c = '-' ∨ c = ' ' then printfChars .flags cs
    else if c = '[' ∨ c = '*' ∨ c = '.' ∨ c.isDigit = true then none
    else if c = '%' then (printfChars .text cs).map (fun r => '%' :: r)
    else (printfChars .text cs).map (fun r => "%!".data ++ c :: "(MISSING)".data ++ r)

/-- Library function `fmt.Printf(format)` without operands: the text written to
the standard output, `none` for a format outside the modelled fragment. -/
def fmtPrintf (format : String) : Option String :=
  (printfChars .text format.data).map String.mk

/-- The print loop of `ReturnAssignments`: for each node of `AssignStack`, in
order, one call `fmt.Printf(FormatNode(node) + "\n")`; the list holds what
each call writes.  `FormatNode`, the rendering of a node by `go/format`, is a
parameter. -/
def ReturnAssignmentsOutput (FormatNode : Stmt → String) (collection : StatementCollection) :
    List (Option String) :=
  collection.AssignStack.map (fun node => fmtPrintf (FormatNode node ++ "\n"))

/-- The loop `for i := range targetFuncs` of `ParseFunctions`:
`targetFuncs[i].Body.List` panics on a nil declaration and on a declaration
whose `Body` is nil; otherwise the collection of the body is appended. -/
def parseLoop : List (Option FuncDecl) → List StatementCollection →
    Result (List StatementCollection)
  | [], out => .ok out
  | none :: _, _ => .panic
  | some fn :: rest, out =>
    match fn.body with
    | none => .panic
    | some stmts => parseLoop rest (out ++ [parseFunction stmts])

/-- Function `ParseFunctions`: the collections of the statements of the given
functions. -/
def ParseFunctions (project : Corpus) (functions : List String) (verbose : Bool) :
    Result (List StatementCollection) :=
  match FindFunctions project functions verbose with
  | .ok targetFuncs => parseLoop targetFuncs []
  | .exit code => .exit code
  | .panic => .panic
  | .outOfFuel => .outOfFuel

/-- The statements `fn.Body.List` of a located declaration `fn`; `none` when
`fn` is nil or its `Body` is nil. -/
def bodyList : Option FuncDecl → Option (List Stmt)
  | none => none
  | some fn => fn.body

/-- A rendering of the nodes of the examples: node `0` is `x := 1`, node `2`
is `y := 2`, node `3` is `x := a % b`. -/
def exampleFormat (node : Stmt) : String :=
  if node.ref = 0 then "x := 1"
  else if node.ref = 2 then "y := 2"
  else if node.ref = 3 then "x := a % b"
  else ""

/-- The files of a corpus, in the order `findFunction` visits them. -/
def corpusFiles (project : Corpus) : List File :=
  project.flatten

/-- Whether a file holds a function declaration named `function`. -/
def declaresName (function : String) (file : File) : Bool :=
  file.any (fun fn => decide (fn.name = function))

/-! ## Slices in memory

The definitions above take a slice as the list of its elements, which is what
a slice is as long as no other slice shares its backing array.  The exported
`ReturnAssignments` accepts any `StatementCollection`, also one whose slices
share an array; the definitions below run `remove` on slice headers over a
memory of backing arrays, with the deletion done in place. -/

/-- A Go slice header: the backing array `arr` (its address), the offset `off`
of the first element in that array, and the length `len`. -/
structure Slice where
  arr : Nat
  off : Nat
  len : Nat
  deriving DecidableEq, Repr

/-- The memory: the content of the backing array at each address. -/
abbrev Memory := Nat → List Stmt

/-- The memory after the array at address `a` has been given the content `v`. -/
def Memory.write (m : Memory) (a : Nat) (v : List Stmt) : Memory :=
  fun b => if b = a then v else m b

/-- The elements `s[0], ..., s[len(s)-1]` of a slice. -/
def Slice.elems (s : Slice) (m : Memory) : List Stmt :=
  ((m s.arr).drop s.off).take s.len

/-- A slice lies inside its backing array. -/
def Slice.InBounds (s : Slice) (m : Memory) : Prop :=
  s.off + s.len ≤ (m s.arr).length

instance (s : Slice) (m : Memory) : Decidable (s.InBounds m) := by
  unfold Slice.InBounds
  infer_instance

/-- The index expression `s[i]`; `none` is the index-out-of-range panic. -/
def Slice.index (s : Slice) (m : Memory) (i : Nat) : Option Stmt :=
  if i < s.len then (m s.arr)[s.off + i]? else none

/-- Two slices share no array element: they lie in different arrays, or one of
them is empty, or their index ranges do not meet. -/
def Slice.Apart (s t : Slice) : Prop :=
  s.arr ≠ t.arr ∨ s.len = 0 ∨ t.len = 0 ∨ s.off + s.len ≤ t.off ∨ t.off + t.len ≤ s.off

instance (s t : Slice) : Decidable (s.Apart t) := by
  unfold Slice.Apart
  infer_instance

/-- The statement `s = append(s[:i], s[i+1:]...)` for `i < len(s)`: the
capacity of `s[:i]` suffices, so the elements behind index `i` are moved one
place down inside the backing array, whose last cell of `s` keeps its value;
the new slice is one shorter. -/
def Slice.deleteAt (s : Slice) (m : Memory) (i : Nat) : Memory × Slice :=
  (m.write s.arr
      ((m s.arr).take (s.off + i) ++ ((m s.arr).drop (s.off + i + 1)).take (s.len - i - 1) ++
        (m s.arr).drop (s.off + s.len - 1)),
    { s with len := s.len - 1 })

/-- Type `StatementCollection` as it lies in memory: one slice header per
field; the zero header is the nil slice. -/
structure SliceCollection where
  AssignStack : Slice := ⟨0, 0, 0⟩
  ExprStack : Slice := ⟨0, 0, 0⟩
  IfStack : Slice := ⟨0, 0, 0⟩
  BadStack : Slice := ⟨0, 0, 0⟩
  DeclStack : Slice := ⟨0, 0, 0⟩
  EmptyStack : Slice := ⟨0, 0, 0⟩
  LabeledStack : Slice := ⟨0, 0, 0⟩
  SendStack : Slice := ⟨0, 0, 0⟩
  IncDecStack : Slice := ⟨0, 0, 0⟩
  GoStack : Slice := ⟨0, 0, 0⟩
  DeferStack : Slice := ⟨0, 0, 0⟩
  ReturnStack : Slice := ⟨0, 0, 0⟩
  BranchStack : Slice := ⟨0, 0, 0⟩
  BlockStack : Slice := ⟨0, 0, 0⟩
  SwitchStack : Slice := ⟨0, 0, 0⟩
  TypeSwitchStack : Slice := ⟨0, 0, 0⟩
  CommStack : Slice := ⟨0, 0, 0⟩
  SelectStack : Slice := ⟨0, 0, 0⟩
  ForStack : Slice := ⟨0, 0, 0⟩
  RangeStack : Slice := ⟨0, 0, 0⟩
  Listing : Slice := ⟨0, 0, 0⟩
  deriving DecidableEq, Repr

/-- The twenty kind stacks of a collection in memory, as slice headers. -/
def kindSlices (c : SliceCollection) : List Slice :=
  [c.AssignStack, c.ExprStack, c.IfStack, c.BadStack, c.DeclStack, c.EmptyStack,
   c.LabeledStack, c.SendStack, c.IncDecStack, c.GoStack, c.DeferStack, c.ReturnStack,
   c.BranchStack, c.BlockStack, c.SwitchStack, c.TypeSwitchStack, c.CommStack,
   c.SelectStack, c.ForStack, c.RangeStack]

/-- The collection read from memory: every slice replaced by its elements. -/
def readCollection (m : Memory) (c : SliceCollection) : StatementCollection :=
  { AssignStack := c.AssignStack.elems m,
    ExprStack := c.ExprStack.elems m,
    IfStack := c.IfStack.elems m,
    BadStack := c.BadStack.elems m,
    DeclStack := c.DeclStack.elems m,
    EmptyStack := c.EmptyStack.elems m,
    LabeledStack := c.LabeledStack.elems m,
    SendStack := c.SendStack.elems m,
    IncDecStack := c.IncDecStack.elems m,
    GoStack := c.GoStack.elems m,
    DeferStack := c.DeferStack.elems m,
    ReturnStack := c.ReturnStack.elems m,
    BranchStack := c.BranchStack.elems m,
    BlockStack := c.BlockStack.elems m,
    SwitchStack := c.SwitchStack.elems m,
    TypeSwitchStack := c.TypeSwitchStack.elems m,
    CommStack := c.CommStack.elems m,
    SelectStack := c.SelectStack.elems m,
    ForStack := c.ForStack.elems m,
    RangeStack := c.RangeStack.elems m,
    Listing := c.Listing.elems m }

/-- The inner loop `for j := 0; j < len(AssignStack); j++` of `remove` on
slices in memory, with `n` rounds left (`j = len(AssignStack) - n`): the round
reads `Listing[i]` and `AssignStack[j]` from the memory as it is then, and on
a match deletes `Listing[i]` in place. -/
def removeInnerInPlace (assign : Slice) (i : Nat) :
    Nat → Memory → Slice → Result (Memory × Slice)
  | 0, m, listing => .ok (m, listing)
  | n + 1, m, listing =>
    match listing.index m i, assign.index m (assign.len - (n + 1)) with
    | some x, some a =>
      if x = a then
        removeInnerInPlace assign i n (listing.deleteAt m i).1 (listing.deleteAt m i).2
      else removeInnerInPlace assign i n m listing
    | _, _ => .panic

/-- The outer loop `for i := 0; i < len(Listing); i++` of `remove` on slices
in memory, with a step budget. -/
def removeOuterInPlace (assign : Slice) :
    Nat → Nat → Memory → Slice → Result (Memory × Slice)
  | 0, i, m, listing => if i < listing.len then .outOfFuel else .ok (m, listing)
  | fuel + 1, i, m, listing =>
    if i < listing.len then
      match removeInnerInPlace assign i assign.len m listing with
      | .ok r => removeOuterInPlace assign fuel (i + 1) r.1 r.2
      | .exit code => .exit code
      | .panic => .panic
      | .outOfFuel => .outOfFuel
    else .ok (m, listing)

/-- Function `remove` on a collection in memory: the memory after the call and
the collection returned, which is the argument with a new `Listing` header. -/
def removeInPlace (m : Memory) (collection : SliceCollection) :
    Result (Memory × SliceCollection) :=
  match removeOuterInPlace collection.AssignStack collection.Listing.len 0 m
      collection.Listing with
  | .ok r => .ok (r.1, { collection with Listing := r.2 })
  | .exit code => .exit code
  | .panic => .panic
  | .outOfFuel => .outOfFuel

/-- Function `ReturnAssignments` on a collection in memory: after the print
loop, `remove(collection)`. -/
def ReturnAssignmentsInPlace (m : Memory) (collection : SliceCollection) :
    Result (Memory × SliceCollection) :=
  removeInPlace m collection

/-- The collection a call returns, read from the memory the call leaves. -/
def readResult : Result (Memory × SliceCollection) → Result StatementCollection
  | .ok r => .ok (readCollection r.1 r.2)
  | .exit code => .exit code
  | .panic => .panic
  | .outOfFuel => .outOfFuel

/-- The listing a run of the loops of `remove` leaves, read from the memory it
leaves. -/
def readListing : Result (Memory × Slice) → Result (List Stmt)
  | .ok r => .ok (r.2.elems r.1)
  | .exit code => .exit code
  | .panic => .panic
  | .outOfFuel => .outOfFuel

/-- The memory `m1` is the memory `m` except, at most, in the cells of the
slice `s`. -/
def Memory.AgreeOutside (m m1 : Memory) (s : Slice) : Prop :=
  ∀ b k, (b ≠ s.arr ∨ k < s.off ∨ s.off + s.len ≤ k) → (m1 b)[k]? = (m b)[k]?

/-- What a run of the loops of `remove` may do to the memory `m` and the
listing `L`, given the assignment stack `A`: the result `r` (memory and
listing header) is a listing in the same array at the same offset, not longer
and inside the array; the memory has changed in the cells of `L` only and
every array has kept its size; the elements of the new listing are a
subsequence of the old ones; and when `A` shares no element with `L`, the
elements that are not in `A` are all kept. -/
def DeletesOnly (A : Slice) (m : Memory) (L : Slice) (r : Memory × Slice) : Prop :=
  r.2.arr = L.arr ∧ r.2.off = L.off ∧ r.2.len ≤ L.len ∧ r.2.InBounds r.1 ∧
    Memory.AgreeOutside m r.1 L ∧ (∀ b, (r.1 b).length = (m b).length) ∧
    (r.2.elems r.1).Sublist (L.elems m) ∧
    (A.Apart L →
      (r.2.elems r.1).filter (fun x => decide (x ∉ A.elems m)) =
        (L.elems m).filter (fun x => decide (x ∉ A.elems m)))

/-- A memory with one array, at address `0`, holding `x := 1`, an `if`
statement and `y := 2`. -/
def exampleMemory : Memory :=
  fun a => if a = 0 then exampleBody else []

/-- A memory laid out as `parseFunction` leaves it for the body of
`exampleMemory`: the listing at address `0`, the two assignments at address
`1`, the `if` statement at address `2`. -/
def exampleMemory2 : Memory :=
  fun a => if a = 0 then exampleBody
    else if a = 1 then [⟨"AssignStmt", 0⟩, ⟨"AssignStmt", 2⟩]
    else if a = 2 then [⟨"IfStmt", 1⟩] else []

/-- The collection of `parseFunction` for that body, as slices over
`exampleMemory2`, no two of them in one array. -/
def exampleSlices : SliceCollection :=
  { AssignStack := ⟨1, 0, 2⟩, IfStack := ⟨2, 0, 1⟩, Listing := ⟨0, 0, 3⟩ }

/-- A memory with one array, at address `0`, holding `x := 1`, `y := 2` and an
`if` statement. -/
def exampleMemory3 : Memory :=
  fun a => if a = 0 then [⟨"AssignStmt", 0⟩, ⟨"AssignStmt", 2⟩, ⟨"IfStmt", 1⟩] else []

/-! ## Classification -/

theorem bucketStep_Listing (c : StatementCollection) (x : Stmt) :
    (bucketStep c x).Listing = c.Listing := by
  unfold bucketStep
  simp only [apply_ite StatementCollection.Listing, ite_self]

theorem foldl_parseStep_Listing (stmts : List Stmt) (c : StatementCollection) :
    (stmts.foldl parseStep c).Listing = c.Listing ++ stmts := by
  induction stmts generalizing c with
  | nil => simp
  | cons x xs ih =>
    rw [List.foldl_cons, ih]
    simp [parseStep, bucketStep_Listing]

theorem ofKind_append (name : String) (l₁ l₂ : List Stmt) :
    ofKind name (l₁ ++ l₂) = ofKind name l₁ ++ ofKind name l₂ := by
  simp [ofKind]

theorem ofKind_cons (name : String) (x : Stmt) (xs : List Stmt) :
    ofKind name (x :: xs) = ofKind name [x] ++ ofKind name xs :=
  ofKind_append name [x] xs

theorem mem_ofKind {name : String} {x : Stmt} {l : List Stmt} :
    x ∈ ofKind name l ↔ x ∈ l ∧ GetNodeType x = name := by
  simp [ofKind]

/-- One round of the loop appends the element to the stack whose label is its
type name, and to no other. -/
theorem kindStacks_parseStep (c : StatementCollection) (x : Stmt) :
    kindStacks (parseStep c x) =
      List.zipWith (fun b n => b ++ ofKind n [x]) (kindStacks c) switchNames := by
  rcases x with ⟨t, r⟩
  by_cases h : t ∈ switchNames
  · simp only [switchNames, List.mem_cons, List.mem_singleton, List.not_mem_nil, or_false] at h
    rcases h with rfl | rfl | rfl | rfl | rfl | rfl | rfl | rfl | rfl | rfl | rfl | rfl | rfl |
      rfl | rfl | rfl | rfl | rfl | rfl | rfl <;>
    simp [parseStep, bucketStep, kindStacks, ofKind, GetNodeType, switchNames]
  · simp only [switchNames, List.mem_cons, List.mem_singleton, List.not_mem_nil, or_false,
      not_or] at h
    simp [parseStep, bucketStep, kindStacks, ofKind, GetNodeType, switchNames, h]

theorem kindStacks_length (c : StatementCollection) : (kindStacks c).length = 20 := rfl

theorem zipWith_ofKind_step (bs : List (List Stmt)) (ns : List String) (x : Stmt)
    (xs : List Stmt) :
    List.zipWith (fun b n => b ++ ofKind n xs)
        (List.zipWith (fun b n => b ++ ofKind n [x]) bs ns) ns =
      List.zipWith (fun b n => b ++ ofKind n (x :: xs)) bs ns := by
  induction bs generalizing ns with
  | nil => simp
  | cons b bs ih =>
    cases ns with
    | nil => simp
    | cons n ns =>
      simp only [List.zipWith_cons_cons, ih, List.cons.injEq, and_true]
      rw [ofKind_cons n x xs, List.append_assoc]

theorem kindStacks_foldl_parseStep (stmts : List Stmt) (c : StatementCollection) :
    kindStacks (stmts.foldl parseStep c) =
      List.zipWith (fun b n => b ++ ofKind n stmts) (kindStacks c) switchNames := by
  induction stmts generalizing c with
  | nil => simp [kindStacks, switchNames, ofKind]
  | cons x xs ih =>
    rw [List.foldl_cons, ih, kindStacks_parseStep, zipWith_ofKind_step]

theorem listing_parseFunction (body : List Stmt) : (parseFunction body).Listing = body := by
  rw [parseFunction, foldl_parseStep_Listing]
  rfl

/-- Every stack of `parseFunction body` is the filter of `body` by the label
of its case. -/
theorem kindStacks_parseFunction (body : List Stmt) :
    kindStacks (parseFunction body) = switchNames.map (fun n => ofKind n body) := by
  rw [parseFunction, kindStacks_foldl_parseStep]
  simp [kindStacks, switchNames]

theorem switchNames_nodup : switchNames.Nodup := by decide

/-- The stacks selected by a duplicate-free list of labels hold, together, the
nodes whose type name is one of the labels, each as often as it occurs. -/
theorem flatten_ofKind_perm (names : List String) (hn : names.Nodup) (body : List Stmt) :
    ((names.map (fun n => ofKind n body)).flatten).Perm
      (body.filter (fun s => decide (GetNodeType s ∈ names))) := by
  induction names with
  | nil => simp
  | cons n ns ih =>
    rw [List.nodup_cons] at hn
    obtain ⟨hnot, hns⟩ := hn
    rw [List.map_cons, List.flatten_cons]
    have h1 : List.filter (fun s => decide (GetNodeType s = n))
          (body.filter (fun s => decide (GetNodeType s ∈ n :: ns))) = ofKind n body := by
      rw [List.filter_filter, ofKind]
      apply List.filter_congr
      intro s _
      by_cases hs : GetNodeType s = n <;> simp [hs]
    have h2 : List.filter (fun s => !decide (GetNodeType s = n))
          (body.filter (fun s => decide (GetNodeType s ∈ n :: ns))) =
          body.filter (fun s => decide (GetNodeType s ∈ ns)) := by
      rw [List.filter_filter]
      apply List.filter_congr
      intro s _
      by_cases hs : GetNodeType s = n
      · have : n ∉ ns := hnot
        simp [hs, this]
      · simp [hs]
    have h3 := List.filter_append_perm (fun s => decide (GetNodeType s = n))
      (body.filter (fun s => decide (GetNodeType s ∈ n :: ns)))
    rw [h1, h2] at h3
    exact (List.Perm.append_left _ (ih hns)).trans h3

theorem filter_switchNames_eq_self (body : List Stmt)
    (h : ∀ s ∈ body, GetNodeType s ∈ switchNames) :
    body.filter (fun s => decide (GetNodeType s ∈ switchNames)) = body := by
  rw [List.filter_eq_self]
  intro s hs
  simpa using h s hs

/-- C3. Totality of classification: the listing of `parseFunction body` is
`body` itself, with the same length, the same nodes and the same order,
whatever the type names of the nodes are. -/
theorem parseFunction_Listing (body : List Stmt) :
    (parseFunction body).Listing = body ∧
      (parseFunction body).Listing.length = body.length := by
  have h := listing_parseFunction body
  exact ⟨h, by rw [h]⟩

/-- C4, as stated, fails: a body holding one node whose type name is
`CaseClause` (a statement type of `go/ast` for which the collection has no
stack) is classified into twenty empty stacks, so the stacks do not hold the
nodes of the body. -/
theorem parseFunction_partition_counterexample :
    (kindStacks (parseFunction [⟨"CaseClause", 0⟩])).flatten = [] ∧
      ¬ ((kindStacks (parseFunction [⟨"CaseClause", 0⟩])).flatten).Perm [⟨"CaseClause", 0⟩] ∧
      ((kindStacks (parseFunction [⟨"CaseClause", 0⟩])).map List.length).sum ≠
        [(⟨"CaseClause", 0⟩ : Stmt)].length := by
  have h : (kindStacks (parseFunction [⟨"CaseClause", 0⟩])).flatten = [] := by decide
  refine ⟨h, ?_, ?_⟩
  · rw [h]
    simp
  · decide

/-- C4, amended. Partition exhaustiveness for bodies whose nodes all have one
of the type names that the switch recognises: the twenty stacks of
`parseFunction body` hold, as a multiset, exactly the nodes of `body`; the
stack lengths sum to `len(body)`; and every node of the body lies in exactly
one of the twenty stacks. -/
theorem parseFunction_partition (body : List Stmt)
    (h : ∀ s ∈ body, GetNodeType s ∈ switchNames) :
    ((kindStacks (parseFunction body)).flatten).Perm body ∧
      ((kindStacks (parseFunction body)).map List.length).sum = body.length ∧
      ∀ s ∈ body,
        ((kindStacks (parseFunction body)).filter (fun b => decide (s ∈ b))).length = 1 := by
  have hp : ((kindStacks (parseFunction body)).flatten).Perm body := by
    have := flatten_ofKind_perm switchNames switchNames_nodup body
    rwa [filter_switchNames_eq_self body h, ← kindStacks_parseFunction] at this
  refine ⟨hp, ?_, ?_⟩
  · rw [← List.length_flatten]
    exact hp.length_eq
  · intro s hs
    have ht := h s hs
    rw [kindStacks_parseFunction]
    simp only [switchNames, List.mem_cons, List.mem_singleton, List.not_mem_nil,
      or_false] at ht
    rcases ht with ht | ht | ht | ht | ht | ht | ht | ht | ht | ht | ht | ht | ht | ht | ht |
      ht | ht | ht | ht | ht <;>
    simp [switchNames, List.filter_cons, mem_ofKind, hs, ht]

/-- Witness of the amended C4 on the body
`x := 1; if x > 0 { ... }; y := 2`. -/
theorem parseFunction_partition_witness :
    (∀ s ∈ exampleBody, GetNodeType s ∈ switchNames) ∧
      ((kindStacks (parseFunction exampleBody)).flatten).Perm exampleBody ∧
      ((kindStacks (parseFunction exampleBody)).map List.length).sum = exampleBody.length ∧
      ∀ s ∈ exampleBody,
        ((kindStacks (parseFunction exampleBody)).filter (fun b => decide (s ∈ b))).length = 1 :=
  ⟨by decide, parseFunction_partition exampleBody (by decide)⟩

/-- C5. Per-kind stack content and order: for each of the nineteen statement
type names the switch recognises, the corresponding stack of
`parseFunction body` is the subsequence of `body` made of the nodes with that
type name, in source order (so it is empty when the name does not occur, and
only the nodes of `body` itself are bucketed). -/
theorem parseFunction_stacks (body : List Stmt) :
    (parseFunction body).AssignStack = ofKind "AssignStmt" body ∧
    (parseFunction body).ExprStack = ofKind "ExprStmt" body ∧
    (parseFunction body).IfStack = ofKind "IfStmt" body ∧
    (parseFunction body).BadStack = ofKind "BadStmt" body ∧
    (parseFunction body).DeclStack = ofKind "DeclStmt" body ∧
    (parseFunction body).EmptyStack = ofKind "EmptyStmt" body ∧
    (parseFunction body).LabeledStack = ofKind "LabeledStmt" body ∧
    (parseFunction body).SendStack = ofKind "SendStmt" body ∧
    (parseFunction body).IncDecStack = ofKind "IncDecStmt" body ∧
    (parseFunction body).GoStack = ofKind "GoStmt" body ∧
    (parseFunction body).DeferStack = ofKind "DeferStmt" body ∧
    (parseFunction body).ReturnStack = ofKind "ReturnStmt" body ∧
    (parseFunction body).BranchStack = ofKind "BranchStmt" body ∧
    (parseFunction body).BlockStack = ofKind "BlockStmt" body ∧
    (parseFunction body).SwitchStack = ofKind "SwitchStmt" body ∧
    (parseFunction body).TypeSwitchStack = ofKind "TypeSwitchStmt" body ∧
    (parseFunction body).SelectStack = ofKind "SelectStmt" body ∧
    (parseFunction body).ForStack = ofKind "ForStmt" body ∧
    (parseFunction body).RangeStack = ofKind "RangeStmt" body := by
  have h := kindStacks_parseFunction body
  simp only [kindStacks, switchNames, List.map_cons, List.map_nil, List.cons.injEq,
    and_true] at h
  obtain ⟨h1, h2, h3, h4, h5, h6, h7, h8, h9, h10, h11, h12, h13, h14, h15, h16, _, h18, h19,
    h20⟩ := h
  exact ⟨h1, h2, h3, h4, h5, h6, h7, h8, h9, h10, h11, h12, h13, h14, h15, h16, h18, h19, h20⟩

/-- C6. Bucket exclusivity: when the nodes of `body` are pairwise distinct,
every stack of `parseFunction body` is duplicate-free and any two of the
twenty stacks are disjoint. -/
theorem parseFunction_stacks_exclusive (body : List Stmt) (h : body.Nodup) :
    (∀ b ∈ kindStacks (parseFunction body), b.Nodup) ∧
      (kindStacks (parseFunction body)).Pairwise List.Disjoint := by
  rw [← List.nodup_flatten, kindStacks_parseFunction,
    (flatten_ofKind_perm switchNames switchNames_nodup body).nodup_iff]
  exact h.sublist (List.filter_sublist _)

/-- Witness of C6 on the body
`x := 1; if x > 0 { ... }; y := 2`. -/
theorem parseFunction_stacks_exclusive_witness :
    exampleBody.Nodup ∧
      (∀ b ∈ kindStacks (parseFunction exampleBody), b.Nodup) ∧
      (kindStacks (parseFunction exampleBody)).Pairwise List.Disjoint :=
  ⟨by decide, parseFunction_stacks_exclusive exampleBody (by decide)⟩

/-! ## Removal of the assignments -/

theorem getElem?_append_cons (P : List Stmt) (s : Stmt) (S : List Stmt) :
    (P ++ s :: S)[P.length]? = some s := by
  rw [List.getElem?_append_right (le_refl _)]
  simp

theorem take_drop_append_cons (P : List Stmt) (s : Stmt) (S : List Stmt) :
    (P ++ s :: S).take P.length ++ (P ++ s :: S).drop (P.length + 1) = P ++ S := by
  simp

/-- Assignments that differ from the node at index `i` leave the listing as
it is. -/
theorem removeInner_skip (P : List Stmt) (s : Stmt) (S T₁ T₂ : List Stmt) (h : s ∉ T₁) :
    removeInner P.length (T₁ ++ T₂) (P ++ s :: S) = removeInner P.length T₂ (P ++ s :: S) := by
  induction T₁ with
  | nil => rfl
  | cons a T ih =>
    rw [List.mem_cons, not_or] at h
    rw [List.cons_append, removeInner, getElem?_append_cons]
    simp only
    rw [if_neg h.1]
    exact ih h.2

theorem removeInner_no_match (P : List Stmt) (s : Stmt) (S T : List Stmt) (h : s ∉ T) :
    removeInner P.length T (P ++ s :: S) = .ok (P ++ s :: S) := by
  have := removeInner_skip P s S T [] h
  rwa [List.append_nil] at this

/-- When the assignments still to be compared are exactly the assignments of
the part `S` of the listing that starts at index `i`, the inner loop deletes
the leading run `U` of assignments of `S` and stops at the first other node. -/
theorem removeInner_aligned (P S : List Stmt) :
    ∃ U D, S = U ++ D ∧ (∀ u ∈ U, GetNodeType u = "AssignStmt") ∧
      (∀ d ∈ D.head?, GetNodeType d ≠ "AssignStmt") ∧
      removeInner P.length (ofKind "AssignStmt" S) (P ++ S) = .ok (P ++ D) := by
  induction S with
  | nil => exact ⟨[], [], rfl, by simp, by simp, rfl⟩
  | cons s S ih =>
    by_cases hs : GetNodeType s = "AssignStmt"
    · obtain ⟨U, D, hS, hU, hD, hrun⟩ := ih
      refine ⟨s :: U, D, by rw [hS]; rfl, ?_, hD, ?_⟩
      · intro u hu
        rcases List.mem_cons.1 hu with rfl | hu
        · exact hs
        · exact hU u hu
      · have hk : ofKind "AssignStmt" (s :: S) = s :: ofKind "AssignStmt" S := by
          simp [ofKind, hs]
        rw [hk, removeInner, getElem?_append_cons]
        simp only
        rw [if_pos trivial, take_drop_append_cons]
        exact hrun
    · refine ⟨[], s :: S, rfl, by simp, by simpa using hs, ?_⟩
      apply removeInner_no_match
      intro hmem
      exact hs (mem_ofKind.1 hmem).2

theorem removeOuter_exit (A : List Stmt) (fuel i : Nat) (L : List Stmt) (h : ¬ i < L.length) :
    removeOuter A fuel i L = .ok L := by
  cases fuel <;> simp [removeOuter, h]

/-- The outer loop on a listing `P ++ S` whose part `S` from index `i` on is
still to be visited, when the assignment stack holds the assignments of
`B ++ S` and the nodes of `B ++ S` are pairwise distinct: the assignments of
`S` are deleted and nothing else. -/
theorem removeOuter_spec (fuel : Nat) :
    ∀ (B P S : List Stmt), S.length ≤ fuel → (B ++ S).Nodup →
      removeOuter (ofKind "AssignStmt" (B ++ S)) fuel P.length (P ++ S) =
        .ok (P ++ S.filter (fun s => decide (GetNodeType s ≠ "AssignStmt"))) := by
  induction fuel with
  | zero =>
    intro B P S hlen _
    have hS : S = [] := List.length_eq_zero.1 (Nat.le_zero.1 hlen)
    subst hS
    simp [removeOuter]
  | succ f ih =>
    intro B P S hlen hnd
    cases S with
    | nil => simp [removeOuter]
    | cons s S =>
      have hi : P.length < (P ++ s :: S).length := by simp
      have hsB : s ∉ ofKind "AssignStmt" B := by
        intro hmem
        have h1 : s ∈ B := (mem_ofKind.1 hmem).1
        exact (List.nodup_append.1 hnd).2.2 h1 (List.mem_cons_self s S)
      obtain ⟨U, D, hS, hU, hD, hrun⟩ := removeInner_aligned P (s :: S)
      rw [removeOuter, if_pos hi, ofKind_append, removeInner_skip P s S _ _ hsB, hrun]
      simp only
      have hfU : U.filter (fun s => decide (GetNodeType s ≠ "AssignStmt")) = [] := by
        rw [List.filter_eq_nil_iff]
        intro u hu
        simp [hU u hu]
      rw [← ofKind_append, hS, List.filter_append, hfU, List.nil_append]
      cases D with
      | nil =>
        rw [removeOuter_exit _ _ _ _ (by simp)]
        simp
      | cons d D =>
        have hd : GetNodeType d ≠ "AssignStmt" := hD d (by simp)
        have hlen2 : D.length ≤ f := by
          have := congrArg List.length hS
          simp only [List.length_cons, List.length_append] at this
          simp only [List.length_cons] at hlen
          omega
        have hnd2 : ((B ++ U ++ [d]) ++ D).Nodup := by
          rw [hS] at hnd
          simpa [List.append_assoc] using hnd
        have key := ih (B ++ U ++ [d]) (P ++ [d]) D hlen2 hnd2
        have e1 : B ++ (U ++ d :: D) = (B ++ U ++ [d]) ++ D := by simp
        have e2 : P ++ d :: D = (P ++ [d]) ++ D := by simp
        have e3 : P.length + 1 = (P ++ [d]).length := by simp
        rw [e1, e2, e3, key]
        simp [List.filter_cons, hd]

/-- On the collection of a body of pairwise distinct nodes, `remove` returns
and its listing is the body without its assignments. -/
theorem remove_parseFunction (body : List Stmt) (h : body.Nodup) :
    remove (parseFunction body) =
      .ok { parseFunction body with
            Listing := body.filter (fun s => decide (GetNodeType s ≠ "AssignStmt")) } := by
  have hA : (parseFunction body).AssignStack = ofKind "AssignStmt" body := by
    have hk := kindStacks_parseFunction body
    simp only [kindStacks, switchNames, List.map_cons, List.cons.injEq] at hk
    exact hk.1
  have hL := listing_parseFunction body
  have key := removeOuter_spec body.length [] [] body (le_refl _) (by simpa using h)
  simp only [List.nil_append, List.length_nil] at key
  rw [← hA] at key
  have key2 : removeOuter (parseFunction body).AssignStack (parseFunction body).Listing.length 0
      (parseFunction body).Listing =
        .ok (body.filter (fun s => decide (GetNodeType s ≠ "AssignStmt"))) := by
    rw [hL]
    exact key
  rw [remove, key2]

theorem removeInner_length_le (i : Nat) (T : List Stmt) :
    ∀ (L L1 : List Stmt), removeInner i T L = .ok L1 → L1.length ≤ L.length := by
  induction T with
  | nil =>
    intro L L1 h
    simp only [removeInner, Result.ok.injEq] at h
    rw [h]
  | cons a T ih =>
    intro L L1 h
    rw [removeInner] at h
    cases hget : L[i]? with
    | none =>
      rw [hget] at h
      exact absurd h (by simp)
    | some x =>
      rw [hget] at h
      simp only at h
      split at h
      · have := ih _ _ h
        simp only [List.length_append, List.length_take, List.length_drop] at this
        omega
      · exact ih _ _ h

theorem removeInner_ne_outOfFuel (i : Nat) (T : List Stmt) :
    ∀ L : List Stmt, removeInner i T L ≠ .outOfFuel := by
  induction T with
  | nil => intro L; simp [removeInner]
  | cons a T ih =>
    intro L
    rw [removeInner]
    cases hget : L[i]? with
    | none => simp
    | some x =>
      simp only
      split
      · exact ih _
      · exact ih _

/-- The step budget is never the reason for `removeOuter` to stop: a budget of
`len(Listing) - i` rounds is enough. -/
theorem removeOuter_fuel (A : List Stmt) (fuel : Nat) :
    ∀ (i : Nat) (L : List Stmt), L.length - i ≤ fuel → removeOuter A fuel i L ≠ .outOfFuel := by
  induction fuel with
  | zero =>
    intro i L h
    have : ¬ i < L.length := by omega
    simp [removeOuter, this]
  | succ f ih =>
    intro i L h
    rw [removeOuter]
    split
    · cases hin : removeInner i A L with
      | ok L1 =>
        simp only
        have := removeInner_length_le i A L L1 hin
        exact ih (i + 1) L1 (by omega)
      | exit code => simp
      | panic => simp
      | outOfFuel => exact absurd hin (removeInner_ne_outOfFuel i A L)
    · simp

/-- Function `remove` always stops within its step budget: it returns or panics. -/
theorem remove_ne_outOfFuel (c : StatementCollection) : remove c ≠ .outOfFuel := by
  rw [remove]
  have := removeOuter_fuel c.AssignStack c.Listing.length 0 c.Listing (by omega)
  cases h : removeOuter c.AssignStack c.Listing.length 0 c.Listing with
  | ok L => simp
  | exit code => simp
  | panic => simp
  | outOfFuel => exact absurd h this

/-- C1. For a body of pairwise distinct nodes, `ReturnAssignments` on
`parseFunction body` returns a collection whose listing is the sequence of the
nodes of `body` that are not assignments, in their original order; it holds no
assignment and its length is `len(body)` minus the number of assignments. -/
theorem ReturnAssignments_parseFunction (body : List Stmt) (h : body.Nodup) :
    ∃ c, ReturnAssignments (parseFunction body) = .ok c ∧
      c.Listing = body.filter (fun s => decide (GetNodeType s ≠ "AssignStmt")) ∧
      (∀ s ∈ c.Listing, GetNodeType s ≠ "AssignStmt") ∧
      c.Listing.length = body.length - (ofKind "AssignStmt" body).length := by
  refine ⟨_, remove_parseFunction body h, rfl, ?_, ?_⟩
  · intro s hs
    simpa using (List.mem_filter.1 hs).2
  · have h1 := (List.filter_append_perm (fun s => decide (GetNodeType s = "AssignStmt"))
      body).length_eq
    have h2 : List.filter (fun s => !decide (GetNodeType s = "AssignStmt")) body =
        List.filter (fun s => decide (GetNodeType s ≠ "AssignStmt")) body := by
      apply List.filter_congr
      intro s _
      simp
    rw [h2, List.length_append] at h1
    simp only [ofKind]
    omega

/-- Witness of C1 on the body
`x := 1; if x > 0 { ... }; y := 2`, whose nodes are distinct. -/
theorem ReturnAssignments_parseFunction_witness :
    exampleBody.Nodup ∧
      ∃ c, ReturnAssignments (parseFunction exampleBody) = .ok c ∧
        c.Listing = exampleBody.filter (fun s => decide (GetNodeType s ≠ "AssignStmt")) ∧
        (∀ s ∈ c.Listing, GetNodeType s ≠ "AssignStmt") ∧
        c.Listing.length = exampleBody.length - (ofKind "AssignStmt" exampleBody).length :=
  ⟨by decide, ReturnAssignments_parseFunction exampleBody (by decide)⟩

/-- C2, the code at two collections. With `Listing = [x]` and
`AssignStack = [x, y]` the inner loop deletes `x` and then reads `Listing[0]`
of the emptied listing: `ReturnAssignments` panics instead of returning.  With
`Listing = [x, y]` and `AssignStack = [y, x]` it returns the listing `[y]`,
although `y` is a member of the assignment stack. -/
theorem ReturnAssignments_not_filter :
    ReturnAssignments
        { AssignStack := [⟨"AssignStmt", 0⟩, ⟨"AssignStmt", 1⟩],
          Listing := [⟨"AssignStmt", 0⟩] } = .panic ∧
      ReturnAssignments
        { AssignStack := [⟨"AssignStmt", 1⟩, ⟨"AssignStmt", 0⟩],
          Listing := [⟨"AssignStmt", 0⟩, ⟨"AssignStmt", 1⟩] } =
        .ok { AssignStack := [⟨"AssignStmt", 1⟩, ⟨"AssignStmt", 0⟩],
              Listing := [⟨"AssignStmt", 1⟩] } ∧
      [(⟨"AssignStmt", 0⟩ : Stmt), ⟨"AssignStmt", 1⟩].filter
          (fun s => decide (s ∉ [(⟨"AssignStmt", 1⟩ : Stmt), ⟨"AssignStmt", 0⟩])) = [] := by
  refine ⟨by decide, by decide, by decide⟩

/-! ## Validation of the name list -/

theorem validateInner_eq (fn out : List String) :
    validateInner out fn = out ++ fn.filter (fun t => decide (t ≠ "")) := by
  induction fn generalizing out with
  | nil => simp [validateInner]
  | cons t ts ih =>
    have hstep : validateInner out (t :: ts) =
        validateInner (if t = "" then out else out ++ [t]) ts := rfl
    rw [hstep, ih]
    by_cases ht : t = "" <;> simp [ht]

theorem foldl_validateInner (functions out : List String) :
    functions.foldl (fun out f => validateInner out (stringsSplit f)) out =
      out ++ flatNames functions := by
  induction functions generalizing out with
  | nil => simp [flatNames]
  | cons f fs ih =>
    rw [List.foldl_cons, ih, validateInner_eq]
    simp [flatNames]

/-- Function `Validate` decides on the flattened name list: it exits with status `-1`
when that list is empty and returns it otherwise. -/
theorem Validate_eq (functions : List String) :
    Validate functions =
      if (flatNames functions).length = 0 then .exit (-1) else .ok (flatNames functions) := by
  simp only [Validate, foldl_validateInner, List.nil_append]

theorem string_mk_eq_empty (w : List Char) : String.mk w = "" ↔ w = [] := by
  constructor
  · intro h
    simpa using congrArg String.data h
  · rintro rfl
    rfl

/-- Every piece of a split is empty exactly when the text holds nothing but
separators. -/
theorem splitChars_all_empty (sep : Char) (cs : List Char) :
    (∀ w ∈ splitChars sep cs, w = []) ↔ ∀ c ∈ cs, c = sep := by
  induction cs with
  | nil => simp [splitChars]
  | cons c cs ih =>
    by_cases hc : c = sep
    · simp [splitChars, hc, ih]
    · have hne : ¬ ∀ w ∈ splitChars sep (c :: cs), w = [] := by
        intro hall
        rw [splitChars, if_neg hc] at hall
        cases hsp : splitChars sep cs with
        | nil =>
          rw [hsp] at hall
          exact absurd (hall [c] (by simp)) (by simp)
        | cons w ws =>
          rw [hsp] at hall
          exact absurd (hall (c :: w) (by simp)) (by simp)
      simp [hne, hc]

theorem filter_stringsSplit_eq_nil (g : String) :
    (stringsSplit g).filter (fun t => decide (t ≠ "")) = [] ↔ ∀ ch ∈ g.data, ch = ',' := by
  rw [List.filter_eq_nil_iff, ← splitChars_all_empty]
  simp only [stringsSplit, List.mem_map, forall_exists_index, and_imp,
    forall_apply_eq_imp_iff₂, decide_eq_true_eq, not_not, string_mk_eq_empty]

theorem flatNames_eq_nil (groups : List String) :
    flatNames groups = [] ↔ ∀ g ∈ groups, ∀ ch ∈ g.data, ch = ',' := by
  rw [flatNames, List.flatMap_eq_nil_iff]
  exact forall₂_congr (fun g _ => filter_stringsSplit_eq_nil g)

/-- C8. Validation flattening: when some entry of `groups` holds a non-empty
comma separated piece, `Validate groups` returns the concatenation, over the
entries in order, of the non-empty pieces of each entry in order. -/
theorem Validate_flatten (groups : List String)
    (h : ∃ g ∈ groups, ∃ t ∈ stringsSplit g, t ≠ "") :
    Validate groups = .ok (flatNames groups) := by
  rw [Validate_eq, if_neg]
  obtain ⟨g, hg, t, ht, hne⟩ := h
  have hmem : t ∈ flatNames groups := by
    rw [flatNames, List.mem_flatMap]
    exact ⟨g, hg, List.mem_filter.2 ⟨ht, by simpa using hne⟩⟩
  intro hlen
  rw [List.length_eq_zero.1 hlen] at hmem
  exact absurd hmem (List.not_mem_nil t)

/-- Witness of C8: `Validate(["a,b", "", "c"])` is
`["a", "b", "c"]`. -/
theorem Validate_flatten_witness :
    (∃ g ∈ ["a,b", "", "c"], ∃ t ∈ stringsSplit g, t ≠ "") ∧
      Validate ["a,b", "", "c"] = .ok (flatNames ["a,b", "", "c"]) ∧
      flatNames ["a,b", "", "c"] = ["a", "b", "c"] :=
  ⟨⟨"c", by decide, "c", by decide, by decide⟩,
    Validate_flatten ["a,b", "", "c"] ⟨"c", by decide, "c", by decide, by decide⟩,
    by decide⟩

/-- C9. `Validate` ends the process with the non-zero status `-1` exactly when
the flattened name list is empty, that is exactly when the input list is empty
or every entry consists of commas only (the empty string included); in every
other case it returns a non-empty list.  In particular `Validate([""])` is
fatal. -/
theorem Validate_fatal_iff (groups : List String) :
    (Validate groups = .exit (-1) ↔ flatNames groups = []) ∧
      (flatNames groups = [] ↔ groups = [] ∨ ∀ g ∈ groups, ∀ ch ∈ g.data, ch = ',') ∧
      (Validate groups ≠ .exit (-1) → ∃ out, out ≠ [] ∧ Validate groups = .ok out) ∧
      ((-1 : Int) ≠ 0 ∧ Validate [""] = .exit (-1)) := by
  refine ⟨?_, ?_, ?_, by decide, by decide⟩
  · rw [Validate_eq]
    by_cases h : flatNames groups = []
    · simp [h]
    · have : (flatNames groups).length ≠ 0 := fun hl => h (List.length_eq_zero.1 hl)
      simp [h, this]
  · rw [flatNames_eq_nil]
    constructor
    · exact fun h => Or.inr h
    · rintro (rfl | h)
      · simp
      · exact h
  · intro hne
    rw [Validate_eq] at hne ⊢
    by_cases h : flatNames groups = []
    · simp [h] at hne
    · have : (flatNames groups).length ≠ 0 := fun hl => h (List.length_eq_zero.1 hl)
      exact ⟨flatNames groups, h, by simp [this]⟩

/-! ## Location of the functions -/

/-- The three nested loops of `findFunction` are one pass over the
declarations of the corpus. -/
theorem findFunction_eq_foldl (project : Corpus) (function : String) (verbose : Bool) :
    findFunction project function verbose =
      (corpusDecls project).foldl
        (fun out fn => if fn.name = function then some fn else out) none := by
  simp only [findFunction, corpusDecls, List.foldl_flatten]

theorem foldl_keep_of_no_match (function : String) (decls : List FuncDecl)
    (out : Option FuncDecl) (h : ∀ fn ∈ decls, fn.name ≠ function) :
    decls.foldl (fun out fn => if fn.name = function then some fn else out) out = out := by
  induction decls generalizing out with
  | nil => rfl
  | cons d ds ih =>
    rw [List.foldl_cons, if_neg (h d (List.mem_cons_self d ds))]
    exact ih out (fun fn hfn => h fn (List.mem_cons_of_mem d hfn))

theorem findFunction_none_of_no_match (project : Corpus) (function : String) (verbose : Bool)
    (h : ∀ fn ∈ corpusDecls project, fn.name ≠ function) :
    findFunction project function verbose = none := by
  rw [findFunction_eq_foldl]
  exact foldl_keep_of_no_match function _ none h

theorem foldl_append_findFunction (project : Corpus) (verbose : Bool)
    (functions : List String) (targetFuncs : List (Option FuncDecl)) :
    functions.foldl
        (fun targetFuncs f => targetFuncs ++ [findFunction project f verbose]) targetFuncs =
      targetFuncs ++ functions.map (fun f => findFunction project f verbose) := by
  induction functions generalizing targetFuncs with
  | nil => simp
  | cons f fs ih =>
    rw [List.foldl_cons, ih]
    simp

/-- C10. Batch location: when `Validate names` returns the list `vs`,
`FindFunctions` returns one entry per name of `vs`, in the order of `vs`; the
entry at index `i` is the result of `findFunction` for `vs[i]`, and it is the
absent entry `none` when no declaration of the corpus is named `vs[i]`,
whatever the other names are. -/
theorem FindFunctions_batch (project : Corpus) (names vs : List String) (verbose : Bool)
    (h : Validate names = .ok vs) :
    ∃ out, FindFunctions project names verbose = .ok out ∧
      out = vs.map (fun n => findFunction project n verbose) ∧
      out.length = vs.length ∧
      (∀ (i : Nat) (hi : i < vs.length),
        out[i]? = some (findFunction project vs[i] verbose)) ∧
      (∀ (i : Nat) (hi : i < vs.length),
        (∀ fn ∈ corpusDecls project, fn.name ≠ vs[i]) → out[i]? = some none) := by
  have hout : FindFunctions project names verbose =
      .ok (vs.map (fun n => findFunction project n verbose)) := by
    simp only [FindFunctions, h, foldl_append_findFunction, List.nil_append]
  have hget : ∀ (i : Nat) (hi : i < vs.length),
      (vs.map (fun n => findFunction project n verbose))[i]? =
        some (findFunction project vs[i] verbose) := by
    intro i hi
    rw [List.getElem?_map, List.getElem?_eq_getElem hi]
    rfl
  refine ⟨_, hout, rfl, by simp, hget, ?_⟩
  intro i hi hno
  rw [hget i hi, findFunction_none_of_no_match project vs[i] verbose hno]

/-- Witness of C10: the names `main,doesNotExist` and
`helper` in the example corpus give the declaration of `main`, an absent
entry, and the declaration of `helper`. -/
theorem FindFunctions_batch_witness :
    Validate ["main,doesNotExist", "helper"] = .ok ["main", "doesNotExist", "helper"] ∧
      (∃ out, FindFunctions exampleCorpus ["main,doesNotExist", "helper"] false = .ok out ∧
        out = ["main", "doesNotExist", "helper"].map
          (fun n => findFunction exampleCorpus n false) ∧
        out.length = ["main", "doesNotExist", "helper"].length ∧
        (∀ (i : Nat) (hi : i < ["main", "doesNotExist", "helper"].length),
          out[i]? = some (findFunction exampleCorpus
            (["main", "doesNotExist", "helper"].get ⟨i, hi⟩) false)) ∧
        (∀ (i : Nat) (hi : i < ["main", "doesNotExist", "helper"].length),
          (∀ fn ∈ corpusDecls exampleCorpus,
            fn.name ≠ ["main", "doesNotExist", "helper"].get ⟨i, hi⟩) →
          out[i]? = some none)) ∧
      ["main", "doesNotExist", "helper"].map (fun n => findFunction exampleCorpus n false) =
        [some ⟨10, "main", some exampleBody⟩, none, some ⟨11, "helper", some []⟩] :=
  ⟨by decide,
    FindFunctions_batch exampleCorpus ["main,doesNotExist", "helper"]
      ["main", "doesNotExist", "helper"] false (by decide),
    by decide⟩

/-- The pass of `findFunction` over the declarations keeps the last
declaration whose name is the requested one, and the start value when there is
none. -/
theorem foldl_lastMatch (function : String) (decls : List FuncDecl) (out : Option FuncDecl) :
    decls.foldl (fun out fn => if fn.name = function then some fn else out) out =
      ((decls.filter (fun fn => decide (fn.name = function))).getLast?).or out := by
  induction decls generalizing out with
  | nil => simp
  | cons d ds ih =>
    rw [List.foldl_cons, ih]
    by_cases hd : d.name = function
    · rw [if_pos hd, List.filter_cons_of_pos (by simpa using hd), List.getLast?_cons]
      cases (ds.filter (fun fn => decide (fn.name = function))).getLast? <;> simp
    · rw [if_neg hd, List.filter_cons_of_neg (by simpa using hd)]

theorem findFunction_eq_getLast? (project : Corpus) (function : String) (verbose : Bool) :
    findFunction project function verbose =
      ((corpusDecls project).filter (fun fn => decide (fn.name = function))).getLast? := by
  rw [findFunction_eq_foldl, foldl_lastMatch]
  simp

/-- C11. Single-name location: `findFunction` returns the nil pointer exactly
when no function declaration of the corpus has the requested name, and a
declaration it returns is one of the declarations of the corpus whose name is
the requested name, character for character (so `Main` does not find `main`). -/
theorem findFunction_spec (project : Corpus) (function : String) (verbose : Bool) :
    (findFunction project function verbose = none ↔
        ∀ fn ∈ corpusDecls project, fn.name ≠ function) ∧
      (∀ d, findFunction project function verbose = some d →
        d ∈ corpusDecls project ∧ d.name = function) ∧
      findFunction exampleCorpus "Main" false = none ∧
      findFunction exampleCorpus "main" false = some ⟨10, "main", some exampleBody⟩ := by
  refine ⟨?_, ?_, by decide, by decide⟩
  · rw [findFunction_eq_getLast?, List.getLast?_eq_none_iff, List.filter_eq_nil_iff]
    simp
  · intro d hd
    rw [findFunction_eq_getLast?] at hd
    have hmem := List.mem_of_mem_getLast? hd
    simpa using List.mem_filter.1 hmem

/-- The declarations visited do not depend, as a multiset, on the order of the
packages and of the files of each package. -/
theorem corpusDecls_perm (p r q : Corpus) (h1 : List.Perm p r)
    (h2 : List.Forall₂ List.Perm r q) : (corpusDecls p).Perm (corpusDecls q) := by
  unfold corpusDecls
  exact (h1.flatten.trans (List.Perm.flatten_congr h2)).flatten

theorem perm_eq_of_length_le_one {α : Type} {l₁ l₂ : List α} (h : l₁.Perm l₂)
    (hlen : l₁.length ≤ 1) : l₁ = l₂ := by
  match l₁, hlen with
  | [], _ => exact (List.nil_perm.1 h).symm
  | [a], _ => exact List.singleton_perm.1 h

/-- The files of a corpus are the same, as a multiset, for every order of the
packages and of the files of each package. -/
theorem corpusFiles_perm (p r q : Corpus) (h1 : List.Perm p r)
    (h2 : List.Forall₂ List.Perm r q) : (corpusFiles p).Perm (corpusFiles q) := by
  unfold corpusFiles
  exact h1.flatten.trans (List.Perm.flatten_congr h2)

/-- The declarations named `function` of a list of files are those of the
files that declare the name. -/
theorem filter_flatten_declaresName (function : String) (files : List File) :
    files.flatten.filter (fun fn => decide (fn.name = function)) =
      ((files.filter (declaresName function)).flatten).filter
        (fun fn => decide (fn.name = function)) := by
  induction files with
  | nil => rfl
  | cons f fs ih =>
    rw [List.flatten_cons, List.filter_append, ih]
    by_cases hf : declaresName function f = true
    · rw [List.filter_cons_of_pos hf, List.flatten_cons, List.filter_append]
    · rw [List.filter_cons_of_neg hf]
      have hnil : f.filter (fun fn => decide (fn.name = function)) = [] := by
        rw [List.filter_eq_nil_iff]
        intro fn hfn hname
        apply hf
        rw [declaresName, List.any_eq_true]
        exact ⟨fn, hfn, hname⟩
      rw [hnil, List.nil_append]

/-- C16, as stated, fails: a package with two files that each declare a
function named `String` (methods of two types) gives the one declaration when
the files are visited in one order and the other declaration when they are
visited in the other order. -/
theorem findFunction_order_counterexample :
    List.Perm [[(⟨1, "String", some []⟩ : FuncDecl)], [⟨2, "String", some []⟩]]
        [[⟨2, "String", some []⟩], [⟨1, "String", some []⟩]] ∧
      findFunction [[[⟨1, "String", some []⟩], [⟨2, "String", some []⟩]]] "String" false =
        some ⟨2, "String", some []⟩ ∧
      findFunction [[[⟨2, "String", some []⟩], [⟨1, "String", some []⟩]]] "String" false =
        some ⟨1, "String", some []⟩ ∧
      findFunction [[[⟨1, "String", some []⟩], [⟨2, "String", some []⟩]]] "String" false ≠
        findFunction [[[⟨2, "String", some []⟩], [⟨1, "String", some []⟩]]] "String" false := by
  refine ⟨?_, by decide, by decide, by decide⟩
  exact List.Perm.swap _ _ _

/-- C16, amended. Locator determinism when at most one file of the corpus
holds a declaration with the requested name (the file may declare the name
several times): the result of `findFunction` is the same for every order in
which the packages (`p` reordered to `r`) and the files of each package (`r`
reordered to `q`) are visited. -/
theorem findFunction_order (p r q : Corpus) (function : String) (verbose : Bool)
    (h1 : List.Perm p r) (h2 : List.Forall₂ List.Perm r q)
    (huniq : ((corpusFiles p).filter (declaresName function)).length ≤ 1) :
    findFunction p function verbose = findFunction q function verbose := by
  rw [findFunction_eq_getLast?, findFunction_eq_getLast?]
  have hperm := (corpusFiles_perm p r q h1 h2).filter (declaresName function)
  have hp : corpusDecls p = (corpusFiles p).flatten := rfl
  have hq : corpusDecls q = (corpusFiles q).flatten := rfl
  rw [hp, hq, filter_flatten_declaresName function (corpusFiles p),
    filter_flatten_declaresName function (corpusFiles q),
    perm_eq_of_length_le_one hperm huniq]

/-- Witness of the amended C16: one file declares two methods named `String`,
another file declares `other`; the two files visited in either order give the
same declaration, the last `String` of the first file. -/
theorem findFunction_order_witness :
    List.Perm [[[(⟨1, "String", some []⟩ : FuncDecl), ⟨2, "String", some []⟩],
        [⟨3, "other", some []⟩]]]
      [[[(⟨1, "String", some []⟩ : FuncDecl), ⟨2, "String", some []⟩],
        [⟨3, "other", some []⟩]]] ∧
      List.Forall₂ List.Perm
        [[[(⟨1, "String", some []⟩ : FuncDecl), ⟨2, "String", some []⟩],
          [⟨3, "other", some []⟩]]]
        [[[⟨3, "other", some []⟩],
          [⟨1, "String", some []⟩, ⟨2, "String", some []⟩]]] ∧
      ((corpusFiles [[[(⟨1, "String", some []⟩ : FuncDecl), ⟨2, "String", some []⟩],
          [⟨3, "other", some []⟩]]]).filter (declaresName "String")).length ≤ 1 ∧
      findFunction [[[⟨1, "String", some []⟩, ⟨2, "String", some []⟩],
          [⟨3, "other", some []⟩]]] "String" false =
        findFunction [[[⟨3, "other", some []⟩],
          [⟨1, "String", some []⟩, ⟨2, "String", some []⟩]]] "String" false ∧
      findFunction [[[⟨3, "other", some []⟩],
          [⟨1, "String", some []⟩, ⟨2, "String", some []⟩]]] "String" false =
        some ⟨2, "String", some []⟩ :=
  have h2 : List.Forall₂ List.Perm
      [[[(⟨1, "String", some []⟩ : FuncDecl), ⟨2, "String", some []⟩],
        [⟨3, "other", some []⟩]]]
      [[[⟨3, "other", some []⟩],
        [⟨1, "String", some []⟩, ⟨2, "String", some []⟩]]] :=
    List.Forall₂.cons (List.Perm.swap _ _ _) List.Forall₂.nil
  ⟨List.Perm.refl _, h2, by decide,
    findFunction_order _ _ _ "String" false (List.Perm.refl _) h2 (by decide),
    by decide⟩

/-! ## The report of the assignments -/

theorem printfChars_text_of_no_percent (cs : List Char) (h : '%' ∉ cs) :
    printfChars .text cs = some cs := by
  induction cs with
  | nil => rfl
  | cons c cs ih =>
    rw [List.mem_cons, not_or] at h
    have hc : c ≠ '%' := fun e => h.1 e.symm
    rw [printfChars, if_neg hc, ih h.2]
    rfl

/-- A rendered text without `%` is written as it is, followed by the line
break. -/
theorem fmtPrintf_of_no_percent (text : String) (h : '%' ∉ text.data) :
    fmtPrintf (text ++ "\n") = some (text ++ "\n") := by
  have hn : '%' ∉ (text ++ "\n").data := by
    rw [String.data_append, List.mem_append, not_or]
    exact ⟨h, by decide⟩
  rw [fmtPrintf, printfChars_text_of_no_percent _ hn]
  rfl

theorem ReturnAssignmentsOutput_length (FormatNode : Stmt → String)
    (c : StatementCollection) :
    (ReturnAssignmentsOutput FormatNode c).length = c.AssignStack.length := by
  simp [ReturnAssignmentsOutput]

/-- C12, the code at two collections. For the assignments `x := 1` and
`y := 2` the two strings written are the rendered texts followed by a line
break.  For the assignment `x := a % b` the rendered text is the format of
`fmt.Printf`: `% b` is read as the verb `b` with the space flag and no
operand, and the string written is `x := a %!b(MISSING)` with a line break,
not the rendered text. -/
theorem ReturnAssignmentsOutput_percent :
    ReturnAssignmentsOutput exampleFormat
        { AssignStack := [⟨"AssignStmt", 0⟩, ⟨"AssignStmt", 2⟩] } =
        [some "x := 1\n", some "y := 2\n"] ∧
      exampleFormat ⟨"AssignStmt", 3⟩ = "x := a % b" ∧
      ReturnAssignmentsOutput exampleFormat { AssignStack := [⟨"AssignStmt", 3⟩] } =
        [some "x := a %!b(MISSING)\n"] ∧
      ReturnAssignmentsOutput exampleFormat { AssignStack := [⟨"AssignStmt", 3⟩] } ≠
        [some (exampleFormat ⟨"AssignStmt", 3⟩ ++ "\n")] := by
  refine ⟨by decide, by decide, by decide, by decide⟩

/-! ## Nodes without a case in the switch -/

/-- C13, the code at a body that holds one `*ast.CommClause`: the type name
`CommClause` is not the case label `CommClauseStmt`, so the node is appended
to the listing and to no stack; `CommStack` stays empty. -/
theorem parseFunction_CommClause :
    GetNodeType ⟨"CommClause", 0⟩ = "CommClause" ∧
      (parseFunction [⟨"CommClause", 0⟩]).CommStack = [] ∧
      (kindStacks (parseFunction [⟨"CommClause", 0⟩])).flatten = [] ∧
      (parseFunction [⟨"CommClause", 0⟩]).Listing = [⟨"CommClause", 0⟩] := by
  refine ⟨by decide, by decide, by decide, by decide⟩

/-- C14. Unrecognised kinds are dropped from the stacks: a node `x` of the
body whose type name is none of the twenty case labels lies in none of the
twenty stacks of `parseFunction`, and the stacks are those of the body with
`x` deleted. -/
theorem parseFunction_unrecognised (pre post : List Stmt) (x : Stmt)
    (hx : GetNodeType x ∉ switchNames) :
    (∀ b ∈ kindStacks (parseFunction (pre ++ x :: post)), x ∉ b) ∧
      kindStacks (parseFunction (pre ++ x :: post)) =
        kindStacks (parseFunction (pre ++ post)) := by
  rw [kindStacks_parseFunction, kindStacks_parseFunction]
  constructor
  · intro b hb hxb
    obtain ⟨n, hn, rfl⟩ := List.mem_map.1 hb
    have := (mem_ofKind.1 hxb).2
    exact hx (this ▸ hn)
  · apply List.map_congr_left
    intro n hn
    have hne : GetNodeType x ≠ n := fun e => hx (e ▸ hn)
    rw [ofKind_append, ofKind_append, ofKind_cons]
    have : ofKind n [x] = [] := by simp [ofKind, hne]
    rw [this, List.nil_append]

/-- Witness of C14 on the body `x := 1; <case clause>; if ...`. -/
theorem parseFunction_unrecognised_witness :
    GetNodeType ⟨"CaseClause", 5⟩ ∉ switchNames ∧
      (∀ b ∈ kindStacks (parseFunction
          ([⟨"AssignStmt", 0⟩] ++ ⟨"CaseClause", 5⟩ :: [⟨"IfStmt", 1⟩])),
        (⟨"CaseClause", 5⟩ : Stmt) ∉ b) ∧
      kindStacks (parseFunction ([⟨"AssignStmt", 0⟩] ++ ⟨"CaseClause", 5⟩ :: [⟨"IfStmt", 1⟩])) =
        kindStacks (parseFunction ([⟨"AssignStmt", 0⟩] ++ [⟨"IfStmt", 1⟩])) :=
  ⟨by decide,
    parseFunction_unrecognised [⟨"AssignStmt", 0⟩] [⟨"IfStmt", 1⟩] ⟨"CaseClause", 5⟩
      (by decide)⟩

/-! ## Classification of the located functions -/

theorem FindFunctions_eq_map (project : Corpus) (names vs : List String) (verbose : Bool)
    (h : Validate names = .ok vs) :
    FindFunctions project names verbose =
      .ok (vs.map (fun n => findFunction project n verbose)) := by
  simp only [FindFunctions, h, foldl_append_findFunction, List.nil_append]

/-- The loop of `ParseFunctions` on declarations that all have a body appends
the collection of each body, in order. -/
theorem parseLoop_ok (fs : List (Option FuncDecl)) :
    ∀ out : List StatementCollection, (∀ f ∈ fs, (bodyList f).isSome = true) →
      parseLoop fs out =
        .ok (out ++ fs.map (fun f => parseFunction ((bodyList f).getD []))) := by
  induction fs with
  | nil => intro out _; simp [parseLoop]
  | cons f fs ih =>
    intro out h
    have hf := h f (List.mem_cons_self f fs)
    have hrest : ∀ g ∈ fs, (bodyList g).isSome = true :=
      fun g hg => h g (List.mem_cons_of_mem f hg)
    cases f with
    | none => simp [bodyList] at hf
    | some d =>
      cases hb : d.body with
      | none => simp [bodyList, hb] at hf
      | some stmts =>
        simp only [parseLoop, hb]
        rw [ih _ hrest]
        simp [bodyList, hb]

/-- The loop of `ParseFunctions` panics as soon as one of the declarations is
the nil pointer, whatever was appended before. -/
theorem parseLoop_panic (fs : List (Option FuncDecl)) :
    ∀ out : List StatementCollection, none ∈ fs → parseLoop fs out = .panic := by
  induction fs with
  | nil => intro out h; simp at h
  | cons f fs ih =>
    intro out h
    cases f with
    | none => simp [parseLoop]
    | some d =>
      have hrest : none ∈ fs := by simpa using h
      cases hb : d.body with
      | none => simp [parseLoop, hb]
      | some stmts =>
        simp only [parseLoop, hb]
        exact ih _ hrest

/-- C15. When `Validate names` returns `vs`: if every name of `vs` is found
with a body, `ParseFunctions` returns one collection per name of `vs`, in
order, the one at index `i` being `parseFunction` of the body of the
declaration located for `vs[i]`; if some name of `vs` is not found,
`ParseFunctions` panics on the nil declaration and returns no list. -/
theorem ParseFunctions_spec (project : Corpus) (names vs : List String) (verbose : Bool)
    (h : Validate names = .ok vs) :
    ((∀ n ∈ vs, (bodyList (findFunction project n verbose)).isSome = true) →
        ∃ out, ParseFunctions project names verbose = .ok out ∧
          out.length = vs.length ∧
          ∀ (i : Nat) (hi : i < vs.length) (d : FuncDecl) (stmts : List Stmt),
            findFunction project vs[i] verbose = some d → d.body = some stmts →
            out[i]? = some (parseFunction stmts)) ∧
      ((∃ n ∈ vs, findFunction project n verbose = none) →
        ParseFunctions project names verbose = .panic) := by
  have hfind := FindFunctions_eq_map project names vs verbose h
  constructor
  · intro hall
    have hloop := parseLoop_ok (vs.map (fun n => findFunction project n verbose)) []
      (by
        intro f hf
        obtain ⟨n, hn, rfl⟩ := List.mem_map.1 hf
        exact hall n hn)
    refine ⟨_, by simp only [ParseFunctions, hfind]; exact hloop, by simp, ?_⟩
    intro i hi d stmts hd hb
    simp only [List.nil_append, List.map_map, List.getElem?_map,
      List.getElem?_eq_getElem hi, Option.map_some', Function.comp_apply, hd, bodyList, hb,
      Option.getD_some]
  · rintro ⟨n, hn, hnone⟩
    simp only [ParseFunctions, hfind]
    apply parseLoop_panic
    exact List.mem_map.2 ⟨n, hn, hnone⟩

/-- Witness of C15 in the example corpus: `main` and `helper` are both found
with a body; `doesNotExist` is not found. -/
theorem ParseFunctions_spec_witness :
    Validate ["main,helper"] = .ok ["main", "helper"] ∧
      (∀ n ∈ ["main", "helper"],
        (bodyList (findFunction exampleCorpus n false)).isSome = true) ∧
      (∃ out, ParseFunctions exampleCorpus ["main,helper"] false = .ok out ∧
        out.length = ["main", "helper"].length ∧
        ∀ (i : Nat) (hi : i < ["main", "helper"].length) (d : FuncDecl) (stmts : List Stmt),
          findFunction exampleCorpus (["main", "helper"].get ⟨i, hi⟩) false = some d →
          d.body = some stmts → out[i]? = some (parseFunction stmts)) ∧
      Validate ["main", "doesNotExist"] = .ok ["main", "doesNotExist"] ∧
      (∃ n ∈ ["main", "doesNotExist"], findFunction exampleCorpus n false = none) ∧
      ParseFunctions exampleCorpus ["main", "doesNotExist"] false = .panic :=
  ⟨by decide, by decide,
    (ParseFunctions_spec exampleCorpus ["main,helper"] ["main", "helper"] false
      (by decide)).1 (by decide),
    by decide, ⟨"doesNotExist", by decide, by decide⟩,
    (ParseFunctions_spec exampleCorpus ["main", "doesNotExist"] ["main", "doesNotExist"] false
      (by decide)).2 ⟨"doesNotExist", by decide, by decide⟩⟩

/-! ## Safety of the removal and what it deletes -/

/-- C17. Index safety of the removal: for a body of pairwise distinct nodes,
`remove` on `parseFunction body` does not panic (every read `Listing[i]` of
the two loops is within the current length of the listing), does not exhaust
its step budget, and returns. -/
theorem remove_parseFunction_safe (body : List Stmt) (h : body.Nodup) :
    remove (parseFunction body) ≠ .panic ∧ remove (parseFunction body) ≠ .outOfFuel ∧
      ∃ c, remove (parseFunction body) = .ok c := by
  have hr := remove_parseFunction body h
  refine ⟨?_, ?_, _, hr⟩
  · rw [hr]
    simp
  · rw [hr]
    simp

/-- Witness of C17 on the body `x := 1; if x > 0 { ... }; y := 2`. -/
theorem remove_parseFunction_safe_witness :
    exampleBody.Nodup ∧ remove (parseFunction exampleBody) ≠ .panic ∧
      remove (parseFunction exampleBody) ≠ .outOfFuel ∧
      ∃ c, remove (parseFunction exampleBody) = .ok c :=
  ⟨by decide, remove_parseFunction_safe exampleBody (by decide)⟩

theorem take_append_getElem_drop (L : List Stmt) (i : Nat) (x : Stmt) (h : L[i]? = some x) :
    L = L.take i ++ x :: L.drop (i + 1) := by
  obtain ⟨hi, hx⟩ := List.getElem?_eq_some.1 h
  have h1 := List.take_append_drop i L
  rw [List.drop_eq_getElem_cons hi, hx] at h1
  exact h1.symm

/-- A run of the inner loop that returns only deletes members of the
assignment stack `A` from the listing. -/
theorem removeInner_only_deletes (A : List Stmt) (i : Nat) (T : List Stmt) :
    ∀ (L L1 : List Stmt), (∀ a ∈ T, a ∈ A) → removeInner i T L = .ok L1 →
      L1.Sublist L ∧
        L1.filter (fun x => decide (x ∉ A)) = L.filter (fun x => decide (x ∉ A)) := by
  induction T with
  | nil =>
    intro L L1 _ h
    simp only [removeInner, Result.ok.injEq] at h
    subst h
    exact ⟨List.Sublist.refl _, rfl⟩
  | cons a T ih =>
    intro L L1 hT h
    have hTrest : ∀ b ∈ T, b ∈ A := fun b hb => hT b (List.mem_cons_of_mem a hb)
    rw [removeInner] at h
    cases hget : L[i]? with
    | none =>
      rw [hget] at h
      exact absurd h (by simp)
    | some x =>
      rw [hget] at h
      simp only at h
      split at h
      · rename_i hxa
        obtain ⟨hsub, hfil⟩ := ih _ _ hTrest h
        have hL := take_append_getElem_drop L i x hget
        have hxA : x ∈ A := hxa ▸ hT a (List.mem_cons_self a T)
        have hsub2 : (L.take i ++ L.drop (i + 1)).Sublist L := by
          rw [← List.eraseIdx_eq_take_drop_succ]
          exact List.eraseIdx_sublist L i
        refine ⟨hsub.trans hsub2, ?_⟩
        rw [hfil]
        conv_rhs => rw [hL]
        simp [List.filter_cons, hxA]
      · exact ih _ _ hTrest h

theorem removeOuter_only_deletes (A : List Stmt) (fuel : Nat) :
    ∀ (i : Nat) (L L1 : List Stmt), removeOuter A fuel i L = .ok L1 →
      L1.Sublist L ∧
        L1.filter (fun x => decide (x ∉ A)) = L.filter (fun x => decide (x ∉ A)) := by
  induction fuel with
  | zero =>
    intro i L L1 h
    rw [removeOuter] at h
    split at h
    · exact absurd h (by simp)
    · simp only [Result.ok.injEq] at h
      subst h
      exact ⟨List.Sublist.refl _, rfl⟩
  | succ f ih =>
    intro i L L1 h
    rw [removeOuter] at h
    split at h
    · cases hin : removeInner i A L with
      | ok L2 =>
        rw [hin] at h
        simp only at h
        obtain ⟨hs1, hf1⟩ := removeInner_only_deletes A i A L L2 (fun a ha => ha) hin
        obtain ⟨hs2, hf2⟩ := ih _ _ _ h
        exact ⟨hs2.trans hs1, hf2.trans hf1⟩
      | exit code => rw [hin] at h; exact absurd h (by simp)
      | panic => rw [hin] at h; exact absurd h (by simp)
      | outOfFuel => rw [hin] at h; exact absurd h (by simp)
    · simp only [Result.ok.injEq] at h
      subst h
      exact ⟨List.Sublist.refl _, rfl⟩

/-! ## The validated names are clean -/

/-- No piece of a split holds the separator. -/
theorem splitChars_no_sep (sep : Char) (cs : List Char) :
    ∀ w ∈ splitChars sep cs, sep ∉ w := by
  induction cs with
  | nil => simp [splitChars]
  | cons c cs ih =>
    intro w hw
    rw [splitChars] at hw
    by_cases hc : c = sep
    · rw [if_pos hc] at hw
      rcases List.mem_cons.1 hw with rfl | hw
      · simp
      · exact ih w hw
    · rw [if_neg hc] at hw
      cases hsp : splitChars sep cs with
      | nil =>
        rw [hsp] at hw
        simp only [List.mem_singleton] at hw
        subst hw
        simpa using fun e : sep = c => hc e.symm
      | cons w0 ws =>
        rw [hsp] at hw ih
        rcases List.mem_cons.1 hw with rfl | hw
        · have h0 := ih w0 (List.mem_cons_self w0 ws)
          intro hmem
          rcases List.mem_cons.1 hmem with e | hmem
          · exact hc e.symm
          · exact h0 hmem
        · exact ih w (List.mem_cons_of_mem w0 hw)

/-- A text without the separator is its own single piece. -/
theorem splitChars_of_no_sep (sep : Char) (cs : List Char) (h : sep ∉ cs) :
    splitChars sep cs = [cs] := by
  induction cs with
  | nil => rfl
  | cons c cs ih =>
    rw [List.mem_cons, not_or] at h
    have hc : c ≠ sep := fun e => h.1 e.symm
    rw [splitChars, if_neg hc, ih h.2]

theorem mem_flatNames {t : String} {groups : List String} (h : t ∈ flatNames groups) :
    t ≠ "" ∧ ',' ∉ t.data := by
  rw [flatNames, List.mem_flatMap] at h
  obtain ⟨g, _, ht⟩ := h
  obtain ⟨hsplit, hne⟩ := List.mem_filter.1 ht
  refine ⟨by simpa using hne, ?_⟩
  rw [stringsSplit, List.mem_map] at hsplit
  obtain ⟨w, hw, rfl⟩ := hsplit
  exact splitChars_no_sep ',' g.data w hw

theorem flatNames_of_clean (out : List String) (h : ∀ t ∈ out, t ≠ "" ∧ ',' ∉ t.data) :
    flatNames out = out := by
  induction out with
  | nil => rfl
  | cons t ts ih =>
    have ht := h t (List.mem_cons_self t ts)
    have hsplit : stringsSplit t = [t] := by
      rw [stringsSplit, splitChars_of_no_sep ',' t.data ht.2]
      rfl
    have hrest := ih (fun u hu => h u (List.mem_cons_of_mem t hu))
    rw [flatNames] at hrest ⊢
    rw [List.flatMap_cons, hrest, hsplit]
    simp [ht.1]

/-- C19. Clean name list: when `Validate groups` returns `out`, every element
of `out` is a non-empty string without a comma; so `Validate` returns `out`
again on `out`: `Validate(Validate(groups)) = Validate(groups)`. -/
theorem Validate_clean (groups out : List String) (h : Validate groups = .ok out) :
    (∀ t ∈ out, t ≠ "" ∧ ',' ∉ t.data) ∧ Validate out = .ok out ∧
      Validate out = Validate groups := by
  have hout : out = flatNames groups ∧ (flatNames groups).length ≠ 0 := by
    rw [Validate_eq] at h
    split at h
    · exact absurd h (by simp)
    · rename_i hlen
      simp only [Result.ok.injEq] at h
      exact ⟨h.symm, hlen⟩
  have hclean : ∀ t ∈ out, t ≠ "" ∧ ',' ∉ t.data := by
    intro t ht
    rw [hout.1] at ht
    exact mem_flatNames ht
  have hself : Validate out = .ok out := by
    rw [Validate_eq, flatNames_of_clean out hclean, if_neg]
    rw [hout.1]
    exact hout.2
  exact ⟨hclean, hself, hself.trans h.symm⟩

/-- Witness of C19: `Validate(["a,b", "", "c"])` returns `["a", "b", "c"]`,
and `Validate` returns that list again on it. -/
theorem Validate_clean_witness :
    Validate ["a,b", "", "c"] = .ok ["a", "b", "c"] ∧
      (∀ t ∈ ["a", "b", "c"], t ≠ "" ∧ ',' ∉ t.data) ∧
      Validate ["a", "b", "c"] = .ok ["a", "b", "c"] ∧
      Validate ["a", "b", "c"] = Validate ["a,b", "", "c"] :=
  ⟨by decide, Validate_clean ["a,b", "", "c"] ["a", "b", "c"] (by decide)⟩

/-! ## Removal on slices that may share their backing array -/

theorem elems_getElem? (s : Slice) (m : Memory) (k : Nat) :
    (s.elems m)[k]? = if k < s.len then (m s.arr)[s.off + k]? else none := by
  rw [Slice.elems, List.getElem?_take, List.getElem?_drop]

theorem index_eq_getElem? (s : Slice) (m : Memory) (i : Nat) :
    s.index m i = (s.elems m)[i]? := by
  rw [elems_getElem?, Slice.index]

/-- Cell by cell, the array after the move of `deleteAt`: the cells from the
deleted one to the last but one of the slice take the value of their upper
neighbour, every other cell keeps its value. -/
theorem shift_getElem? (a : List Stmt) (off i len k : Nat) (hi : i < len)
    (hb : off + len ≤ a.length) :
    (a.take (off + i) ++ (a.drop (off + i + 1)).take (len - i - 1) ++
        a.drop (off + len - 1))[k]? =
      if off + i ≤ k ∧ k + 1 < off + len then a[k + 1]? else a[k]? := by
  have h1 : (a.take (off + i)).length = off + i := by
    rw [List.length_take]; omega
  have h2 : ((a.drop (off + i + 1)).take (len - i - 1)).length = len - i - 1 := by
    rw [List.length_take, List.length_drop]; omega
  by_cases hk1 : k < off + i
  · rw [List.append_assoc, List.getElem?_append_left (by omega),
      List.getElem?_take_of_lt hk1, if_neg (by omega)]
  · by_cases hk2 : k + 1 < off + len
    · rw [List.getElem?_append_left (by rw [List.length_append]; omega),
        List.getElem?_append_right (by omega), h1,
        List.getElem?_take_of_lt (by omega), List.getElem?_drop, if_pos (by omega)]
      congr 1
      omega
    · rw [List.getElem?_append_right (by rw [List.length_append]; omega),
        List.length_append, h1, h2, List.getElem?_drop, if_neg (by omega)]
      congr 1
      omega

theorem shift_length (a : List Stmt) (off i len : Nat) (hi : i < len)
    (hb : off + len ≤ a.length) :
    (a.take (off + i) ++ (a.drop (off + i + 1)).take (len - i - 1) ++
        a.drop (off + len - 1)).length = a.length := by
  simp only [List.length_append, List.length_take, List.length_drop]
  omega

theorem deleteAt_snd (s : Slice) (m : Memory) (i : Nat) :
    (s.deleteAt m i).2 = { s with len := s.len - 1 } := rfl

theorem deleteAt_fst_self (s : Slice) (m : Memory) (i : Nat) :
    (s.deleteAt m i).1 s.arr =
      (m s.arr).take (s.off + i) ++ ((m s.arr).drop (s.off + i + 1)).take (s.len - i - 1) ++
        (m s.arr).drop (s.off + s.len - 1) := by
  simp [Slice.deleteAt, Memory.write]

theorem deleteAt_fst_other (s : Slice) (m : Memory) (i b : Nat) (h : b ≠ s.arr) :
    (s.deleteAt m i).1 b = m b := by
  simp [Slice.deleteAt, Memory.write, h]

/-- The deletion in place removes the element at index `i` from the elements
of the slice. -/
theorem deleteAt_elems (s : Slice) (m : Memory) (i : Nat) (hi : i < s.len)
    (hb : s.InBounds m) :
    (s.deleteAt m i).2.elems (s.deleteAt m i).1 = (s.elems m).eraseIdx i := by
  apply List.ext_getElem?
  intro k
  rw [elems_getElem?, List.getElem?_eraseIdx, elems_getElem?, elems_getElem?, deleteAt_snd]
  simp only
  rw [deleteAt_fst_self, shift_getElem? _ _ _ _ _ hi hb]
  by_cases h1 : k < i
  · rw [if_pos (by omega), if_neg (by omega), if_pos h1, if_pos (by omega)]
  · by_cases h2 : k + 1 < s.len
    · rw [if_pos (by omega), if_pos (by omega), if_neg h1, if_pos h2]
      congr 1
    · rw [if_neg (by omega), if_neg h1, if_neg h2]

theorem deleteAt_agree (s : Slice) (m : Memory) (i : Nat) (hi : i < s.len)
    (hb : s.InBounds m) : Memory.AgreeOutside m (s.deleteAt m i).1 s := by
  intro b k hk
  by_cases hbs : b = s.arr
  · subst hbs
    rw [deleteAt_fst_self, shift_getElem? _ _ _ _ _ hi hb, if_neg]
    rcases hk with hk | hk | hk
    · exact absurd rfl hk
    · omega
    · omega
  · rw [deleteAt_fst_other s m i b hbs]

theorem deleteAt_length (s : Slice) (m : Memory) (i : Nat) (hi : i < s.len)
    (hb : s.InBounds m) (b : Nat) : ((s.deleteAt m i).1 b).length = (m b).length := by
  by_cases hbs : b = s.arr
  · subst hbs
    rw [deleteAt_fst_self, shift_length _ _ _ _ hi hb]
  · rw [deleteAt_fst_other s m i b hbs]

/-- A slice that shares no element with `s` has the same elements in two
memories that differ in the cells of `s` only. -/
theorem elems_eq_of_agree (m m1 : Memory) (s t : Slice) (h : Memory.AgreeOutside m m1 s)
    (ht : t.Apart s) : t.elems m1 = t.elems m := by
  apply List.ext_getElem?
  intro k
  rw [elems_getElem?, elems_getElem?]
  by_cases hk : k < t.len
  · rw [if_pos hk, if_pos hk]
    apply h
    rcases ht with ht | ht | ht | ht | ht
    · exact Or.inl ht
    · omega
    · right; omega
    · right; left; omega
    · right; right; omega
  · rw [if_neg hk, if_neg hk]

theorem agreeOutside_refl (m : Memory) (s : Slice) : Memory.AgreeOutside m m s :=
  fun _ _ _ => rfl

theorem agreeOutside_trans (m m1 m2 : Memory) (s s1 : Slice)
    (h1 : Memory.AgreeOutside m m1 s) (h2 : Memory.AgreeOutside m1 m2 s1)
    (ha : s1.arr = s.arr) (ho : s1.off = s.off) (hl : s1.len ≤ s.len) :
    Memory.AgreeOutside m m2 s := by
  intro b k hk
  rw [h2 b k (by rw [ha, ho]; omega), h1 b k hk]

theorem apart_of_shorter (t s s1 : Slice) (h : t.Apart s) (ha : s1.arr = s.arr)
    (ho : s1.off = s.off) (hl : s1.len ≤ s.len) : t.Apart s1 := by
  unfold Slice.Apart at h ⊢
  rw [ha, ho]
  omega

theorem filter_eraseIdx_of_not (p : Stmt → Bool) (l : List Stmt) (i : Nat) (x : Stmt)
    (h : l[i]? = some x) (hp : p x = false) :
    (l.eraseIdx i).filter p = l.filter p := by
  have hl := take_append_getElem_drop l i x h
  rw [List.eraseIdx_eq_take_drop_succ]
  conv_rhs => rw [hl]
  simp [List.filter_cons, hp]

theorem deletesOnly_refl (A : Slice) (m : Memory) (L : Slice) (hb : L.InBounds m) :
    DeletesOnly A m L (m, L) :=
  ⟨rfl, rfl, le_refl _, hb, agreeOutside_refl m L, fun _ => rfl, List.Sublist.refl _,
    fun _ => rfl⟩

theorem deletesOnly_trans (A : Slice) (m : Memory) (L : Slice) (r1 r2 : Memory × Slice)
    (h1 : DeletesOnly A m L r1) (h2 : DeletesOnly A r1.1 r1.2 r2) :
    DeletesOnly A m L r2 := by
  obtain ⟨a1, o1, l1, _, g1, n1, s1, f1⟩ := h1
  obtain ⟨a2, o2, l2, b2, g2, n2, s2, f2⟩ := h2
  refine ⟨a2.trans a1, o2.trans o1, le_trans l2 l1, b2,
    agreeOutside_trans m r1.1 r2.1 L r1.2 g1 g2 a1 o1 l1,
    fun b => (n2 b).trans (n1 b), s2.trans s1, ?_⟩
  intro hA
  have hA1 : A.Apart r1.2 := apart_of_shorter A L r1.2 hA a1 o1 l1
  have hsame : A.elems r1.1 = A.elems m := elems_eq_of_agree m r1.1 L A g1 hA
  have f2A := f2 hA1
  rw [hsame] at f2A
  exact f2A.trans (f1 hA)

/-- One deletion in place of an element that is in the assignment stack. -/
theorem deletesOnly_deleteAt (A : Slice) (m : Memory) (L : Slice) (i : Nat) (x : Stmt)
    (hb : L.InBounds m) (hx : L.index m i = some x) (hxA : x ∈ A.elems m) :
    DeletesOnly A m L (L.deleteAt m i) := by
  have hi : i < L.len := by
    unfold Slice.index at hx
    by_contra hn
    rw [if_neg hn] at hx
    exact absurd hx (by simp)
  have hget : (L.elems m)[i]? = some x := by rw [← index_eq_getElem?]; exact hx
  have hel := deleteAt_elems L m i hi hb
  refine ⟨rfl, rfl, ?_, ?_, deleteAt_agree L m i hi hb, deleteAt_length L m i hi hb, ?_, ?_⟩
  · rw [deleteAt_snd]
    exact Nat.sub_le _ _
  · unfold Slice.InBounds at hb ⊢
    rw [deleteAt_snd]
    simp only
    rw [deleteAt_length L m i hi hb]
    omega
  · rw [hel]
    exact List.eraseIdx_sublist _ _
  · intro _
    rw [hel]
    exact filter_eraseIdx_of_not _ _ i x hget (by simpa using hxA)

theorem removeInnerInPlace_deletesOnly (A : Slice) (i : Nat) (n : Nat) :
    ∀ (m : Memory) (L : Slice) (r : Memory × Slice), L.InBounds m →
      removeInnerInPlace A i n m L = .ok r → DeletesOnly A m L r := by
  induction n with
  | zero =>
    intro m L r hb h
    simp only [removeInnerInPlace, Result.ok.injEq] at h
    subst h
    exact deletesOnly_refl A m L hb
  | succ n ih =>
    intro m L r hb h
    rw [removeInnerInPlace] at h
    cases hx : L.index m i with
    | none =>
      rw [hx] at h
      exact absurd h (by simp)
    | some x =>
      cases ha : A.index m (A.len - (n + 1)) with
      | none =>
        rw [hx, ha] at h
        exact absurd h (by simp)
      | some a =>
        rw [hx, ha] at h
        simp only at h
        split at h
        · rename_i hxa
          have hxA : x ∈ A.elems m := by
            rw [hxa]
            rw [index_eq_getElem?] at ha
            exact List.getElem?_mem ha
          have hstep := deletesOnly_deleteAt A m L i x hb hx hxA
          exact deletesOnly_trans A m L _ r hstep (ih _ _ r hstep.2.2.2.1 h)
        · exact ih m L r hb h

theorem removeOuterInPlace_deletesOnly (A : Slice) (fuel : Nat) :
    ∀ (i : Nat) (m : Memory) (L : Slice) (r : Memory × Slice), L.InBounds m →
      removeOuterInPlace A fuel i m L = .ok r → DeletesOnly A m L r := by
  induction fuel with
  | zero =>
    intro i m L r hb h
    rw [removeOuterInPlace] at h
    split at h
    · exact absurd h (by simp)
    · simp only [Result.ok.injEq] at h
      subst h
      exact deletesOnly_refl A m L hb
  | succ f ih =>
    intro i m L r hb h
    rw [removeOuterInPlace] at h
    split at h
    · cases hin : removeInnerInPlace A i A.len m L with
      | ok r1 =>
        rw [hin] at h
        simp only at h
        have h1 := removeInnerInPlace_deletesOnly A i A.len m L r1 hb hin
        exact deletesOnly_trans A m L r1 r h1 (ih _ _ _ r h1.2.2.2.1 h)
      | exit code => rw [hin] at h; exact absurd h (by simp)
      | panic => rw [hin] at h; exact absurd h (by simp)
      | outOfFuel => rw [hin] at h; exact absurd h (by simp)
    · simp only [Result.ok.injEq] at h
      subst h
      exact deletesOnly_refl A m L hb

theorem kindStacks_readCollection (m : Memory) (c : SliceCollection) :
    kindStacks (readCollection m c) = (kindSlices c).map (fun s => s.elems m) := rfl

/-- C7, as stated, fails: with `Listing` the slice of a three element array
and `AssignStack` the slice of the first element of the same array,
`ReturnAssignments` returns, and the assignment stack of the result reads the
`if` statement that the deletion in place has moved into its cell, not the
assignment `x := 1` it held before the call. -/
theorem ReturnAssignments_frame_counterexample :
    (readCollection exampleMemory { AssignStack := ⟨0, 0, 1⟩, Listing := ⟨0, 0, 3⟩ }) =
        { AssignStack := [⟨"AssignStmt", 0⟩], Listing := exampleBody } ∧
      readResult (ReturnAssignmentsInPlace exampleMemory
          { AssignStack := ⟨0, 0, 1⟩, Listing := ⟨0, 0, 3⟩ }) =
        .ok { AssignStack := [⟨"IfStmt", 1⟩],
              Listing := [⟨"IfStmt", 1⟩, ⟨"AssignStmt", 2⟩] } ∧
      ¬ ∀ r, ReturnAssignmentsInPlace exampleMemory
            { AssignStack := ⟨0, 0, 1⟩, Listing := ⟨0, 0, 3⟩ } = .ok r →
          kindStacks (readCollection r.1 r.2) =
            kindStacks (readCollection exampleMemory
              { AssignStack := ⟨0, 0, 1⟩, Listing := ⟨0, 0, 3⟩ }) := by
  have hres : readResult (ReturnAssignmentsInPlace exampleMemory
      { AssignStack := ⟨0, 0, 1⟩, Listing := ⟨0, 0, 3⟩ }) =
        .ok { AssignStack := [⟨"IfStmt", 1⟩],
              Listing := [⟨"IfStmt", 1⟩, ⟨"AssignStmt", 2⟩] } := by decide
  refine ⟨by decide, hres, ?_⟩
  intro hall
  cases hrun : ReturnAssignmentsInPlace exampleMemory
      { AssignStack := ⟨0, 0, 1⟩, Listing := ⟨0, 0, 3⟩ } with
  | ok r =>
    have hk := hall r hrun
    rw [hrun] at hres
    simp only [readResult, Result.ok.injEq] at hres
    rw [hres] at hk
    exact absurd hk (by decide)
  | exit code => rw [hrun] at hres; exact absurd hres (by simp [readResult])
  | panic => rw [hrun] at hres; exact absurd hres (by simp [readResult])
  | outOfFuel => rw [hrun] at hres; exact absurd hres (by simp [readResult])

/-- C7, amended. Removal frame for a collection none of whose twenty kind
stacks shares an array element with its listing: when `ReturnAssignments`
returns, each of the twenty kind stacks of the result has the elements it had
before the call, the assignment stack included (it is not cleared); the
headers of the stacks are those of the argument. -/
theorem ReturnAssignmentsInPlace_frame (m : Memory) (c : SliceCollection)
    (r : Memory × SliceCollection) (hb : c.Listing.InBounds m)
    (hA : ∀ s ∈ kindSlices c, s.Apart c.Listing)
    (h : ReturnAssignmentsInPlace m c = .ok r) :
    kindStacks (readCollection r.1 r.2) = kindStacks (readCollection m c) ∧
      (readCollection r.1 r.2).AssignStack = (readCollection m c).AssignStack ∧
      kindSlices r.2 = kindSlices c := by
  rw [ReturnAssignmentsInPlace, removeInPlace] at h
  cases hout : removeOuterInPlace c.AssignStack c.Listing.len 0 m c.Listing with
  | ok r1 =>
    rw [hout] at h
    simp only [Result.ok.injEq] at h
    subst h
    have hd := removeOuterInPlace_deletesOnly _ _ _ _ _ r1 hb hout
    have hagree := hd.2.2.2.2.1
    have hstacks : kindStacks (readCollection r1.1 { c with Listing := r1.2 }) =
        kindStacks (readCollection m c) := by
      rw [kindStacks_readCollection, kindStacks_readCollection]
      apply List.map_congr_left
      intro s hs
      exact elems_eq_of_agree m r1.1 c.Listing s hagree (hA s hs)
    refine ⟨hstacks, ?_, rfl⟩
    exact elems_eq_of_agree m r1.1 c.Listing c.AssignStack hagree
      (hA c.AssignStack (by simp [kindSlices]))
  | exit code => rw [hout] at h; exact absurd h (by simp)
  | panic => rw [hout] at h; exact absurd h (by simp)
  | outOfFuel => rw [hout] at h; exact absurd h (by simp)

/-- Witness of the amended C7 on the collection `parseFunction` builds for the
body `x := 1; if x > 0 { ... }; y := 2`, every slice in an array of its own:
the call returns the listing of length one and both deletions have been done
in the array of the listing. -/
theorem ReturnAssignmentsInPlace_frame_witness :
    exampleSlices.Listing.InBounds exampleMemory2 ∧
      (∀ s ∈ kindSlices exampleSlices, s.Apart exampleSlices.Listing) ∧
      ReturnAssignmentsInPlace exampleMemory2 exampleSlices =
        .ok ((exampleMemory2.write 0
                [⟨"IfStmt", 1⟩, ⟨"AssignStmt", 2⟩, ⟨"AssignStmt", 2⟩]).write 0
                [⟨"IfStmt", 1⟩, ⟨"AssignStmt", 2⟩, ⟨"AssignStmt", 2⟩],
             { exampleSlices with Listing := ⟨0, 0, 1⟩ }) ∧
      kindStacks (readCollection
          ((exampleMemory2.write 0
              [⟨"IfStmt", 1⟩, ⟨"AssignStmt", 2⟩, ⟨"AssignStmt", 2⟩]).write 0
              [⟨"IfStmt", 1⟩, ⟨"AssignStmt", 2⟩, ⟨"AssignStmt", 2⟩])
          { exampleSlices with Listing := ⟨0, 0, 1⟩ }) =
        kindStacks (readCollection exampleMemory2 exampleSlices) :=
  ⟨by decide, by decide, rfl,
    (ReturnAssignmentsInPlace_frame exampleMemory2 exampleSlices
      ((exampleMemory2.write 0
          [⟨"IfStmt", 1⟩, ⟨"AssignStmt", 2⟩, ⟨"AssignStmt", 2⟩]).write 0
          [⟨"IfStmt", 1⟩, ⟨"AssignStmt", 2⟩, ⟨"AssignStmt", 2⟩],
        { exampleSlices with Listing := ⟨0, 0, 1⟩ })
      (by decide) (by decide) rfl).1⟩

/-- C18, as stated, fails: with `Listing` the slice of the array holding
`x := 1`, `y := 2` and an `if` statement, and `AssignStack` the slice of the
first two elements of the same array, `remove` returns the listing `y := 2`:
the `if` statement, which is not in the assignment stack of the argument, is
missing, and the member `y := 2` is still there. -/
theorem remove_only_deletes_counterexample :
    readCollection exampleMemory3 { AssignStack := ⟨0, 0, 2⟩, Listing := ⟨0, 0, 3⟩ } =
        { AssignStack := [⟨"AssignStmt", 0⟩, ⟨"AssignStmt", 2⟩],
          Listing := [⟨"AssignStmt", 0⟩, ⟨"AssignStmt", 2⟩, ⟨"IfStmt", 1⟩] } ∧
      readResult (removeInPlace exampleMemory3
          { AssignStack := ⟨0, 0, 2⟩, Listing := ⟨0, 0, 3⟩ }) =
        .ok { AssignStack := [⟨"AssignStmt", 2⟩, ⟨"IfStmt", 1⟩],
              Listing := [⟨"AssignStmt", 2⟩] } ∧
      ¬ ∀ r, removeInPlace exampleMemory3
            { AssignStack := ⟨0, 0, 2⟩, Listing := ⟨0, 0, 3⟩ } = .ok r →
          ∀ x ∈ (readCollection exampleMemory3
              { AssignStack := ⟨0, 0, 2⟩, Listing := ⟨0, 0, 3⟩ }).Listing,
            x ∉ (readCollection r.1 r.2).Listing →
            x ∈ (readCollection exampleMemory3
              { AssignStack := ⟨0, 0, 2⟩, Listing := ⟨0, 0, 3⟩ }).AssignStack := by
  have hres : readResult (removeInPlace exampleMemory3
      { AssignStack := ⟨0, 0, 2⟩, Listing := ⟨0, 0, 3⟩ }) =
        .ok { AssignStack := [⟨"AssignStmt", 2⟩, ⟨"IfStmt", 1⟩],
              Listing := [⟨"AssignStmt", 2⟩] } := by decide
  refine ⟨by decide, hres, ?_⟩
  intro hall
  cases hrun : removeInPlace exampleMemory3
      { AssignStack := ⟨0, 0, 2⟩, Listing := ⟨0, 0, 3⟩ } with
  | ok r =>
    have hk := hall r hrun ⟨"IfStmt", 1⟩ (by decide)
    rw [hrun] at hres
    simp only [readResult, Result.ok.injEq] at hres
    rw [hres] at hk
    exact absurd (hk (by decide)) (by decide)
  | exit code => rw [hrun] at hres; exact absurd hres (by simp [readResult])
  | panic => rw [hrun] at hres; exact absurd hres (by simp [readResult])
  | outOfFuel => rw [hrun] at hres; exact absurd hres (by simp [readResult])

/-- C18, amended. Removal only deletes: when `remove` returns, the listing of
the result is a subsequence of the listing of the argument; and when the
assignment stack shares no array element with the listing, every node of the
listing of the argument that is missing from the result is a member of the
assignment stack of the argument, and the nodes of the listing that are not in
the assignment stack all survive, in their original order. -/
theorem removeInPlace_only_deletes (m : Memory) (c : SliceCollection)
    (r : Memory × SliceCollection) (hb : c.Listing.InBounds m)
    (h : removeInPlace m c = .ok r) :
    (readCollection r.1 r.2).Listing.Sublist (readCollection m c).Listing ∧
      (c.AssignStack.Apart c.Listing →
        (∀ x ∈ (readCollection m c).Listing, x ∉ (readCollection r.1 r.2).Listing →
          x ∈ (readCollection m c).AssignStack) ∧
        (readCollection r.1 r.2).Listing.filter
            (fun x => decide (x ∉ (readCollection m c).AssignStack)) =
          (readCollection m c).Listing.filter
            (fun x => decide (x ∉ (readCollection m c).AssignStack)) ∧
        ((readCollection m c).Listing.filter
            (fun x => decide (x ∉ (readCollection m c).AssignStack))).Sublist
          (readCollection r.1 r.2).Listing) := by
  rw [removeInPlace] at h
  cases hout : removeOuterInPlace c.AssignStack c.Listing.len 0 m c.Listing with
  | ok r1 =>
    rw [hout] at h
    simp only [Result.ok.injEq] at h
    subst h
    obtain ⟨_, _, _, _, _, _, hsub, hfil⟩ :=
      removeOuterInPlace_deletesOnly _ _ _ _ _ r1 hb hout
    refine ⟨hsub, ?_⟩
    intro hapart
    have hf := hfil hapart
    refine ⟨?_, hf, ?_⟩
    · intro x hx hnot
      by_contra hxA
      have hmem : x ∈ (c.Listing.elems m).filter
          (fun x => decide (x ∉ c.AssignStack.elems m)) :=
        List.mem_filter.2 ⟨hx, by simpa using hxA⟩
      rw [← hf] at hmem
      exact hnot (List.mem_filter.1 hmem).1
    · show ((c.Listing.elems m).filter
          (fun x => decide (x ∉ c.AssignStack.elems m))).Sublist (r1.2.elems r1.1)
      rw [← hf]
      exact List.filter_sublist _
  | exit code => rw [hout] at h; exact absurd h (by simp)
  | panic => rw [hout] at h; exact absurd h (by simp)
  | outOfFuel => rw [hout] at h; exact absurd h (by simp)

/-- Witness of the amended C18 on the collection `parseFunction` builds for the
body `x := 1; if x > 0 { ... }; y := 2`, the assignment stack and the listing
in two arrays. -/
theorem removeInPlace_only_deletes_witness :
    exampleSlices.Listing.InBounds exampleMemory2 ∧
      exampleSlices.AssignStack.Apart exampleSlices.Listing ∧
      removeInPlace exampleMemory2 exampleSlices =
        .ok ((exampleMemory2.write 0
                [⟨"IfStmt", 1⟩, ⟨"AssignStmt", 2⟩, ⟨"AssignStmt", 2⟩]).write 0
                [⟨"IfStmt", 1⟩, ⟨"AssignStmt", 2⟩, ⟨"AssignStmt", 2⟩],
             { exampleSlices with Listing := ⟨0, 0, 1⟩ }) ∧
      List.Sublist [(⟨"IfStmt", 1⟩ : Stmt)] exampleBody ∧
      ∀ x ∈ (readCollection exampleMemory2 exampleSlices).Listing,
        x ∉ [(⟨"IfStmt", 1⟩ : Stmt)] →
        x ∈ (readCollection exampleMemory2 exampleSlices).AssignStack :=
  have h := removeInPlace_only_deletes exampleMemory2 exampleSlices
    ((exampleMemory2.write 0
        [⟨"IfStmt", 1⟩, ⟨"AssignStmt", 2⟩, ⟨"AssignStmt", 2⟩]).write 0
        [⟨"IfStmt", 1⟩, ⟨"AssignStmt", 2⟩, ⟨"AssignStmt", 2⟩],
      { exampleSlices with Listing := ⟨0, 0, 1⟩ })
    (by decide) rfl
  ⟨by decide, by decide, rfl, h.1, (h.2 (by decide)).1⟩

/-! ## The two models of `remove` agree on slices that share nothing -/

theorem elems_length (s : Slice) (m : Memory) (hb : s.InBounds m) :
    (s.elems m).length = s.len := by
  unfold Slice.InBounds at hb
  rw [Slice.elems, List.length_take, List.length_drop]
  omega

theorem inBounds_of_length (s : Slice) (m m1 : Memory)
    (hlen : ∀ b, (m1 b).length = (m b).length) (hb : s.InBounds m) : s.InBounds m1 := by
  unfold Slice.InBounds at hb ⊢
  rw [hlen]
  exact hb

/-- The inner loop on slices in memory and the inner loop on lists do the
same, when the assignment stack shares no element with the listing. -/
theorem removeInnerInPlace_refines (A : Slice) (i : Nat) (n : Nat) :
    ∀ (m : Memory) (L : Slice), L.InBounds m → A.InBounds m → A.Apart L → n ≤ A.len →
      readListing (removeInnerInPlace A i n m L) =
        removeInner i ((A.elems m).drop (A.len - n)) (L.elems m) := by
  induction n with
  | zero =>
    intro m L _ hAb _ _
    have hnil : (A.elems m).drop (A.len - 0) = [] := by
      rw [List.drop_eq_nil_iff, elems_length A m hAb]
      omega
    rw [hnil]
    rfl
  | succ n ih =>
    intro m L hb hAb hapart hn
    have hj : A.len - (n + 1) < (A.elems m).length := by
      rw [elems_length A m hAb]; omega
    have hdrop : (A.elems m).drop (A.len - (n + 1)) =
        (A.elems m)[A.len - (n + 1)] :: (A.elems m).drop (A.len - n) := by
      rw [List.drop_eq_getElem_cons hj]
      congr 2
      omega
    have ha : A.index m (A.len - (n + 1)) = some (A.elems m)[A.len - (n + 1)] := by
      rw [index_eq_getElem?, List.getElem?_eq_getElem hj]
    rw [hdrop, removeInnerInPlace, removeInner, ha, ← index_eq_getElem?]
    cases hx : L.index m i with
    | none => rfl
    | some x =>
      simp only
      by_cases hxa : x = (A.elems m)[A.len - (n + 1)]
      · rw [if_pos hxa, if_pos hxa]
        have hxA : x ∈ A.elems m := hxa ▸ List.getElem_mem hj
        have hstep := deletesOnly_deleteAt A m L i x hb hx hxA
        obtain ⟨a1, o1, l1, b1, g1, n1, _, _⟩ := hstep
        have hi : i < L.len := by
          unfold Slice.index at hx
          by_contra hcon
          rw [if_neg hcon] at hx
          exact absurd hx (by simp)
        rw [ih _ _ b1 (inBounds_of_length A m _ n1 hAb)
            (apart_of_shorter A L _ hapart a1 o1 l1) (by omega),
          elems_eq_of_agree m _ L A g1 hapart, deleteAt_elems L m i hi hb,
          List.eraseIdx_eq_take_drop_succ]
      · rw [if_neg hxa, if_neg hxa]
        exact ih m L hb hAb hapart (by omega)

/-- The outer loop on slices in memory and the outer loop on lists do the
same, when the assignment stack shares no element with the listing. -/
theorem removeOuterInPlace_refines (A : Slice) (fuel : Nat) :
    ∀ (i : Nat) (m : Memory) (L : Slice), L.InBounds m → A.InBounds m → A.Apart L →
      readListing (removeOuterInPlace A fuel i m L) =
        removeOuter (A.elems m) fuel i (L.elems m) := by
  induction fuel with
  | zero =>
    intro i m L hb _ _
    rw [removeOuterInPlace, removeOuter, elems_length L m hb]
    split <;> rfl
  | succ f ih =>
    intro i m L hb hAb hapart
    rw [removeOuterInPlace, removeOuter, elems_length L m hb]
    split
    · have hin := removeInnerInPlace_refines A i A.len m L hb hAb hapart (le_refl _)
      rw [Nat.sub_self, List.drop_zero] at hin
      rw [← hin]
      cases hrun : removeInnerInPlace A i A.len m L with
      | ok r1 =>
        obtain ⟨a1, o1, l1, b1, g1, n1, _, _⟩ :=
          removeInnerInPlace_deletesOnly A i A.len m L r1 hb hrun
        show readListing (removeOuterInPlace A f (i + 1) r1.1 r1.2) =
          removeOuter (A.elems m) f (i + 1) (r1.2.elems r1.1)
        rw [ih (i + 1) r1.1 r1.2 b1 (inBounds_of_length A m _ n1 hAb)
            (apart_of_shorter A L _ hapart a1 o1 l1),
          elems_eq_of_agree m _ L A g1 hapart]
      | exit code => rfl
      | panic => rfl
      | outOfFuel => rfl
    · rfl

theorem collection_ext (c₁ c₂ : StatementCollection) (hk : kindStacks c₁ = kindStacks c₂)
    (hl : c₁.Listing = c₂.Listing) : c₁ = c₂ := by
  cases c₁
  cases c₂
  simp only [kindStacks, List.cons.injEq, and_true] at hk
  simp only at hl
  simp only [StatementCollection.mk.injEq]
  obtain ⟨h1, h2, h3, h4, h5, h6, h7, h8, h9, h10, h11, h12, h13, h14, h15, h16, h17, h18,
    h19, h20⟩ := hk
  exact ⟨h1, h2, h3, h4, h5, h6, h7, h8, h9, h10, h11, h12, h13, h14, h15, h16, h17, h18,
    h19, h20, hl⟩

/-- For a collection whose listing shares no array element with any of its
kind stacks, `remove` on the slices in memory returns what `remove` on the
lists of their elements returns: the list model is the source on such
collections, those of `parseFunction` among them. -/
theorem removeInPlace_refines (m : Memory) (c : SliceCollection)
    (hb : c.Listing.InBounds m) (hAb : c.AssignStack.InBounds m)
    (hA : ∀ s ∈ kindSlices c, s.Apart c.Listing) :
    readResult (removeInPlace m c) = remove (readCollection m c) := by
  have hapart : c.AssignStack.Apart c.Listing := hA c.AssignStack (by simp [kindSlices])
  have hout := removeOuterInPlace_refines c.AssignStack c.Listing.len 0 m c.Listing hb hAb
    hapart
  have hlen : (readCollection m c).Listing.length = c.Listing.len := elems_length _ m hb
  rw [remove, removeInPlace, hlen]
  have hA1 : (readCollection m c).AssignStack = c.AssignStack.elems m := rfl
  have hL1 : (readCollection m c).Listing = c.Listing.elems m := rfl
  rw [hA1, hL1, ← hout]
  cases hrun : removeOuterInPlace c.AssignStack c.Listing.len 0 m c.Listing with
  | ok r1 =>
    simp only [readResult, readListing, Result.ok.injEq]
    have hagree := (removeOuterInPlace_deletesOnly _ _ _ _ _ r1 hb hrun).2.2.2.2.1
    apply collection_ext
    · show kindStacks (readCollection r1.1 { c with Listing := r1.2 }) =
        kindStacks (readCollection m c)
      rw [kindStacks_readCollection, kindStacks_readCollection]
      apply List.map_congr_left
      intro s hs
      exact elems_eq_of_agree m r1.1 c.Listing s hagree (hA s hs)
    · rfl
  | exit code => rfl
  | panic => rfl
  | outOfFuel => rfl

theorem removeInnerInPlace_ne_outOfFuel (A : Slice) (i : Nat) (n : Nat) :
    ∀ (m : Memory) (L : Slice), removeInnerInPlace A i n m L ≠ .outOfFuel := by
  induction n with
  | zero => intro m L; simp [removeInnerInPlace]
  | succ n ih =>
    intro m L
    rw [removeInnerInPlace]
    cases L.index m i with
    | none => simp
    | some x =>
      cases A.index m (A.len - (n + 1)) with
      | none => simp
      | some a =>
        simp only
        split
        · exact ih _ _
        · exact ih _ _

/-- The step budget is never the reason for the outer loop in memory to stop. -/
theorem removeOuterInPlace_fuel (A : Slice) (fuel : Nat) :
    ∀ (i : Nat) (m : Memory) (L : Slice), L.InBounds m → L.len - i ≤ fuel →
      removeOuterInPlace A fuel i m L ≠ .outOfFuel := by
  induction fuel with
  | zero =>
    intro i m L _ h
    have : ¬ i < L.len := by omega
    simp [removeOuterInPlace, this]
  | succ f ih =>
    intro i m L hb h
    rw [removeOuterInPlace]
    split
    · cases hin : removeInnerInPlace A i A.len m L with
      | ok r1 =>
        simp only
        obtain ⟨_, _, l1, b1, _⟩ := removeInnerInPlace_deletesOnly A i A.len m L r1 hb hin
        exact ih (i + 1) r1.1 r1.2 b1 (by omega)
      | exit code => simp
      | panic => simp
      | outOfFuel => exact absurd hin (removeInnerInPlace_ne_outOfFuel A i A.len m L)
    · simp

/-- Function `remove` on slices in memory always stops within its step budget. -/
theorem removeInPlace_ne_outOfFuel (m : Memory) (c : SliceCollection)
    (hb : c.Listing.InBounds m) : removeInPlace m c ≠ .outOfFuel := by
  rw [removeInPlace]
  have := removeOuterInPlace_fuel c.AssignStack c.Listing.len 0 m c.Listing hb (by omega)
  cases h : removeOuterInPlace c.AssignStack c.Listing.len 0 m c.Listing with
  | ok r => simp
  | exit code => simp
  | panic => simp
  | outOfFuel => exact absurd h this

end Utils
